import Mathlib

/-!
# BLF-Photon-Bot — verification of the spec's claims against the code

Shallow embedding of the repository's core: the binary value codec
(spec §4.1; the `protocol_reader` / `PhotonPacketBuilder` sources are not
part of the staged files, so the codec is modelled from the spec), the
`PhotonClient` operation sender (`src/bot/PhotonClient.js`), the
`PhotonBot` session handlers (`src/unnamed/part_001`) and the management
HTTP handlers that drive them (`src/unnamed/part_000`).
-/

namespace BLF

/-! ## Big-endian byte helpers

Modelled from the spec: §4.1 "fixed-width payload in a single consistent
byte order (network/big-endian for all multi-byte integers and floats)". -/

/-- The big-endian bytes of `n`, `k` bytes wide (most significant first). -/
def beBytes : Nat → Nat → List Nat
  | 0, _ => []
  | k + 1, n => beBytes k (n / 256) ++ [n % 256]

/-- Reads a big-endian byte list back into a number. -/
def rdN (bytes : List Nat) : Nat :=
  bytes.foldl (fun a b => a * 256 + b) 0

theorem beBytes_length (k n : Nat) : (beBytes k n).length = k := by
  induction k generalizing n with
  | zero => rfl
  | succ k ih => simp [beBytes, ih]

theorem rdN_aux (bytes : List Nat) (a : Nat) :
    bytes.foldl (fun a b => a * 256 + b) a = a * 256 ^ bytes.length + rdN bytes := by
  induction bytes generalizing a with
  | nil => simp [rdN]
  | cons b bs ih =>
    simp only [List.foldl_cons, List.length_cons, rdN]
    rw [ih (a * 256 + b), ih (0 * 256 + b)]
    ring

theorem rdN_append (a b : List Nat) :
    rdN (a ++ b) = rdN a * 256 ^ b.length + rdN b := by
  show (a ++ b).foldl (fun a b => a * 256 + b) 0 = _
  rw [List.foldl_append]
  exact rdN_aux b _

theorem rdN_beBytes (k n : Nat) : rdN (beBytes k n) = n % 256 ^ k := by
  induction k generalizing n with
  | zero => simp [beBytes, rdN, Nat.mod_one]
  | succ k ih =>
    rw [beBytes, rdN_append, ih]
    have h2 : rdN [n % 256] = n % 256 := by simp [rdN]
    have h3 : n % 256 ^ (k + 1) = n % 256 + 256 * (n / 256 % 256 ^ k) := by
      rw [pow_succ', Nat.mod_mul]
    simp only [List.length_cons, List.length_nil, h2, h3, pow_one]
    ring

/-! ## The Value model

Modelled from the spec: §3 "Value — a tagged union over: Null, Boolean,
Byte(u8), Short(i16), Integer(i32), Long(i64), Float(f32), Double(f64),
String(UTF-8 text), ByteArray(bytes), homogeneous Array<T> (Integer,
String, or nested Value arrays), ObjectArray, Map, and a fixed
3-component floating-point vector".  The codec sources
(`protocol_reader`, `PhotonUtils/PhotonPacketBuilder`) are not among the
staged files.  Multi-byte scalars are carried as their big-endian bit
patterns (a `Nat` below the width bound), which makes the required
"bit-exact for floating-point including NaN/Infinity" round-trip a
statement about the raw IEEE-754 bit pattern, exactly as the wire
carries it. -/

/-- The element of a homogeneous Array: per §3 the element type is
Integer, String, or again a (nested) homogeneous array.  On the wire an
element of an array-of-arrays is an array "encoded without its own
leading type tag" (§4.1), i.e. its own element-type byte, 2-byte count
and payload. -/
inductive HomArr where
  | ints (xs : List Nat) : HomArr
  | strs (xs : List (List Nat)) : HomArr
  | nested (xs : List HomArr) : HomArr

inductive Value where
  | null : Value
  | boolean (b : Bool) : Value
  | byte (n : Nat) : Value
  | short (n : Nat) : Value
  | int (n : Nat) : Value
  | long (n : Nat) : Value
  | float (bits : Nat) : Value
  | double (bits : Nat) : Value
  | str (bytes : List Nat) : Value
  | byteArray (bytes : List Nat) : Value
  | intArray (xs : List Nat) : Value
  | strArray (xs : List (List Nat)) : Value
  | nestedArray (xs : List HomArr) : Value
  | objectArray (xs : List Value) : Value
  | map (pairs : List (Value × Value)) : Value
  | vector3 (x y z : Nat) : Value

/-- Modelled from the spec: §4.1 "every value begins with a one-byte type
tag".  The concrete tag bytes live in the absent `protocol_reader/constants`
module; the Protocol16 ASCII tags are used.  Only their distinctness
matters to the claims. -/
def tagNull : Nat := 42
def tagBool : Nat := 111
def tagByte : Nat := 98
def tagShort : Nat := 107
def tagInt : Nat := 105
def tagLong : Nat := 108
def tagFloat : Nat := 102
def tagDouble : Nat := 100
def tagString : Nat := 115
def tagByteArray : Nat := 120
def tagArray : Nat := 121
def tagObjectArray : Nat := 122
def tagMap : Nat := 104
def tagVector3 : Nat := 86

/-- Modelled from the spec: §4.1/§5 "a declared element/pair count exceeds
a fixed maximum (e.g. 10 000)" — a process-wide constant. -/
def maxCount : Nat := 10000

/-- Modelled from the spec: §4.1 "depth exceeds a fixed maximum (e.g. 32)". -/
def maxDepth : Nat := 32

mutual

/-- The untagged wire form of one homogeneous-array element of an
array-of-arrays (§4.1): its element-type byte, 2-byte element count and
payload, with no leading `tagArray`. -/
def encodeHomArr : HomArr → List Nat
  | .ints xs => tagInt :: beBytes 2 xs.length ++ (xs.map (beBytes 4)).flatten
  | .strs xs =>
      tagString :: beBytes 2 xs.length ++
        (xs.map (fun s => beBytes 2 s.length ++ s)).flatten
  | .nested xs => tagArray :: beBytes 2 xs.length ++ encodeHomArrList xs

def encodeHomArrList : List HomArr → List Nat
  | [] => []
  | a :: as => encodeHomArr a ++ encodeHomArrList as

end

mutual

/-- Modelled from the spec: §4.1 `encode(Value) -> bytes`, one-byte type
tag followed by the type-specific payload; 2-byte lengths for strings and
container counts, 4-byte lengths for byte arrays, big-endian throughout;
homogeneous arrays carry one element-type tag and untagged elements;
object arrays and maps recursively encode fully-tagged values. -/
def encode : Value → List Nat
  | .null => [tagNull]
  | .boolean b => [tagBool, if b then 1 else 0]
  | .byte n => tagByte :: beBytes 1 n
  | .short n => tagShort :: beBytes 2 n
  | .int n => tagInt :: beBytes 4 n
  | .long n => tagLong :: beBytes 8 n
  | .float bits => tagFloat :: beBytes 4 bits
  | .double bits => tagDouble :: beBytes 8 bits
  | .str bs => tagString :: beBytes 2 bs.length ++ bs
  | .byteArray bs => tagByteArray :: beBytes 4 bs.length ++ bs
  | .intArray xs =>
      tagArray :: tagInt :: beBytes 2 xs.length ++ (xs.map (beBytes 4)).flatten
  | .strArray xs =>
      tagArray :: tagString :: beBytes 2 xs.length ++
        (xs.map (fun s => beBytes 2 s.length ++ s)).flatten
  | .nestedArray xs => tagArray :: tagArray :: beBytes 2 xs.length ++ encodeHomArrList xs
  | .objectArray xs => tagObjectArray :: beBytes 2 xs.length ++ encodeList xs
  | .map ps => tagMap :: beBytes 2 ps.length ++ encodePairs ps
  | .vector3 x y z => tagVector3 :: (beBytes 4 x ++ beBytes 4 y ++ beBytes 4 z)

/-- Encodes the elements of an ObjectArray, each fully tagged. -/
def encodeList : List Value → List Nat
  | [] => []
  | v :: vs => encode v ++ encodeList vs

/-- Encodes the pairs of a Map, key then value, each fully tagged. -/
def encodePairs : List (Value × Value) → List Nat
  | [] => []
  | (k, v) :: ps => encode k ++ encode v ++ encodePairs ps

end

/-! ## The decoder

Modelled from the spec: §4.1 `decode(bytes) -> (Value, bytesConsumed)`,
recursive by construction, tracking recursion depth, failing closed on a
depth or count limit, and rejecting any length that would read past the
end of the buffer (§7 `DecodeError`: truncated buffer, illegal type tag,
count/depth-limit exceeded). -/

inductive DErr where
  | truncated : DErr
  | badTag : DErr
  | depthExceeded : DErr
  | countExceeded : DErr
deriving DecidableEq

/-- Reads a `k`-byte big-endian number off the front of the buffer. -/
def readFixed (k : Nat) (bs : List Nat) : Except DErr (Nat × List Nat) :=
  if k ≤ bs.length then .ok (rdN (bs.take k), bs.drop k) else .error .truncated

/-- Reads `k` raw bytes off the front of the buffer. -/
def readChunk (k : Nat) (bs : List Nat) : Except DErr (List Nat × List Nat) :=
  if k ≤ bs.length then .ok (bs.take k, bs.drop k) else .error .truncated

/-- Reads `n` untagged 4-byte integers (the payload of a homogeneous
Integer array). -/
def readInts : Nat → List Nat → Except DErr (List Nat × List Nat)
  | 0, bs => .ok ([], bs)
  | n + 1, bs => do
    let (x, r) ← readFixed 4 bs
    let (xs, r') ← readInts n r
    .ok (x :: xs, r')

/-- Reads `n` untagged length-prefixed strings (the payload of a
homogeneous String array). -/
def readStrs : Nat → List Nat → Except DErr (List (List Nat) × List Nat)
  | 0, bs => .ok ([], bs)
  | n + 1, bs => do
    let (len, r) ← readFixed 2 bs
    let (s, r') ← readChunk len r
    let (ss, r'') ← readStrs n r'
    .ok (s :: ss, r'')

mutual

/-- Reads one untagged homogeneous-array element of an array-of-arrays:
its element-type byte, 2-byte count (checked against `maxCount`) and
payload.  Entering a further nested array with no fuel left fails closed
with `depthExceeded`. -/
def readHomArr : Nat → List Nat → Except DErr (HomArr × List Nat)
  | fuel, bs =>
    match bs with
    | [] => .error .truncated
    | et :: r0 =>
      if et = tagInt then do
        let (n, r) ← readFixed 2 r0
        if maxCount < n then .error .countExceeded
        else do
          let (xs, r') ← readInts n r
          .ok (.ints xs, r')
      else if et = tagString then do
        let (n, r) ← readFixed 2 r0
        if maxCount < n then .error .countExceeded
        else do
          let (xs, r') ← readStrs n r
          .ok (.strs xs, r')
      else if et = tagArray then
        match fuel with
        | 0 => .error .depthExceeded
        | g + 1 => do
          let (n, r) ← readFixed 2 r0
          if maxCount < n then .error .countExceeded
          else do
            let (as, r') ← readHomArrs g n r
            .ok (.nested as, r')
      else .error .badTag

/-- Reads `n` untagged homogeneous arrays. -/
def readHomArrs : Nat → Nat → List Nat → Except DErr (List HomArr × List Nat)
  | _, 0, bs => .ok ([], bs)
  | fuel, n + 1, bs => do
    let (a, r) ← readHomArr fuel bs
    let (as, r') ← readHomArrs fuel n r
    .ok (a :: as, r')

end

mutual

/-- One recursive decode step: dispatch on the leading type tag.  `fuel`
is the remaining recursion depth; entering an ObjectArray or Map with no
fuel left fails closed with `depthExceeded`, and a declared element/pair
count above `maxCount` fails closed with `countExceeded`, independent of
how much buffer remains. -/
def decodeValue : Nat → List Nat → Except DErr (Value × List Nat)
  | _, [] => .error .truncated
  | fuel, t :: bs =>
    if t = tagNull then .ok (.null, bs)
    else if t = tagBool then
      match bs with
      | [] => .error .truncated
      | b :: r => .ok (.boolean (b != 0), r)
    else if t = tagByte then do
      let (n, r) ← readFixed 1 bs
      .ok (.byte n, r)
    else if t = tagShort then do
      let (n, r) ← readFixed 2 bs
      .ok (.short n, r)
    else if t = tagInt then do
      let (n, r) ← readFixed 4 bs
      .ok (.int n, r)
    else if t = tagLong then do
      let (n, r) ← readFixed 8 bs
      .ok (.long n, r)
    else if t = tagFloat then do
      let (n, r) ← readFixed 4 bs
      .ok (.float n, r)
    else if t = tagDouble then do
      let (n, r) ← readFixed 8 bs
      .ok (.double n, r)
    else if t = tagString then do
      let (len, r) ← readFixed 2 bs
      let (s, r') ← readChunk len r
      .ok (.str s, r')
    else if t = tagByteArray then do
      let (len, r) ← readFixed 4 bs
      let (s, r') ← readChunk len r
      .ok (.byteArray s, r')
    else if t = tagArray then
      match bs with
      | [] => .error .truncated
      | et :: r0 =>
        if et = tagInt then do
          let (n, r) ← readFixed 2 r0
          if maxCount < n then .error .countExceeded
          else do
            let (xs, r') ← readInts n r
            .ok (.intArray xs, r')
        else if et = tagString then do
          let (n, r) ← readFixed 2 r0
          if maxCount < n then .error .countExceeded
          else do
            let (xs, r') ← readStrs n r
            .ok (.strArray xs, r')
        else if et = tagArray then
          match fuel with
          | 0 => .error .depthExceeded
          | f + 1 => do
            let (n, r) ← readFixed 2 r0
            if maxCount < n then .error .countExceeded
            else do
              let (as, r') ← readHomArrs f n r
              .ok (.nestedArray as, r')
        else .error .badTag
    else if t = tagObjectArray then
      match fuel with
      | 0 => .error .depthExceeded
      | f + 1 => do
        let (n, r) ← readFixed 2 bs
        if maxCount < n then .error .countExceeded
        else do
          let (xs, r') ← decodeValues f n r
          .ok (.objectArray xs, r')
    else if t = tagMap then
      match fuel with
      | 0 => .error .depthExceeded
      | f + 1 => do
        let (n, r) ← readFixed 2 bs
        if maxCount < n then .error .countExceeded
        else do
          let (ps, r') ← decodePairs f n r
          .ok (.map ps, r')
    else if t = tagVector3 then do
      let (x, r) ← readFixed 4 bs
      let (y, r') ← readFixed 4 r
      let (z, r'') ← readFixed 4 r'
      .ok (.vector3 x y z, r'')
    else .error .badTag

/-- Reads `n` fully-tagged values (the elements of an ObjectArray). -/
def decodeValues : Nat → Nat → List Nat → Except DErr (List Value × List Nat)
  | _, 0, bs => .ok ([], bs)
  | fuel, n + 1, bs => do
    let (v, r) ← decodeValue fuel bs
    let (vs, r') ← decodeValues fuel n r
    .ok (v :: vs, r')

/-- Reads `n` fully-tagged key/value pairs (the pairs of a Map). -/
def decodePairs : Nat → Nat → List Nat → Except DErr (List (Value × Value) × List Nat)
  | _, 0, bs => .ok ([], bs)
  | fuel, n + 1, bs => do
    let (k, r) ← decodeValue fuel bs
    let (v, r') ← decodeValue fuel r
    let (ps, r'') ← decodePairs fuel n r'
    .ok ((k, v) :: ps, r'')

end

/-- Top-level decode: runs `decodeValue` with the process-wide depth
budget and reports the number of bytes consumed. -/
def decode (bs : List Nat) : Except DErr (Value × Nat) :=
  match decodeValue maxDepth bs with
  | .ok (v, rest) => .ok (v, bs.length - rest.length)
  | .error e => .error e

mutual

/-- Well-formedness of a homogeneous-array element: counts within the
codec's bound and scalar payloads within their width. -/
def wfHomArr : HomArr → Bool
  | .ints xs => xs.length ≤ maxCount && xs.all (· < 256 ^ 4)
  | .strs xs => xs.length ≤ maxCount && xs.all (fun s => s.length < 256 ^ 2)
  | .nested xs => xs.length ≤ maxCount && wfHomArrList xs

def wfHomArrList : List HomArr → Bool
  | [] => true
  | a :: as => wfHomArr a && wfHomArrList as

end

mutual

/-- The values the encoder can produce onto the wire: scalar payloads fit
their fixed width, lengths fit their two- or four-byte prefix, and container
counts respect the codec's own `maxCount` bound (a count beyond it cannot
be decoded back, by the spec's fail-closed rule). -/
def wf : Value → Bool
  | .null => true
  | .boolean _ => true
  | .byte n => n < 256
  | .short n => n < 256 ^ 2
  | .int n => n < 256 ^ 4
  | .long n => n < 256 ^ 8
  | .float bits => bits < 256 ^ 4
  | .double bits => bits < 256 ^ 8
  | .str bs => bs.length < 256 ^ 2
  | .byteArray bs => bs.length < 256 ^ 4
  | .intArray xs => xs.length ≤ maxCount && xs.all (· < 256 ^ 4)
  | .strArray xs => xs.length ≤ maxCount && xs.all (fun s => s.length < 256 ^ 2)
  | .nestedArray xs => xs.length ≤ maxCount && wfHomArrList xs
  | .objectArray xs => xs.length ≤ maxCount && wfList xs
  | .map ps => ps.length ≤ maxCount && wfPairs ps
  | .vector3 x y z => x < 256 ^ 4 && y < 256 ^ 4 && z < 256 ^ 4

def wfList : List Value → Bool
  | [] => true
  | v :: vs => wf v && wfList vs

def wfPairs : List (Value × Value) → Bool
  | [] => true
  | (k, v) :: ps => wf k && wf v && wfPairs ps

end

mutual

/-- Nesting depth of a homogeneous-array element: each further nested
array level costs one recursive decode call. -/
def hdepth : HomArr → Nat
  | .ints _ => 0
  | .strs _ => 0
  | .nested xs => hdepthList xs + 1

def hdepthList : List HomArr → Nat
  | [] => 0
  | a :: as => max (hdepth a) (hdepthList as)

end

mutual

/-- Container nesting depth of a value: how many recursive decode calls
its wire image forces (ObjectArray, Map and nested homogeneous arrays
recurse). -/
def vdepth : Value → Nat
  | .null => 0
  | .boolean _ => 0
  | .byte _ => 0
  | .short _ => 0
  | .int _ => 0
  | .long _ => 0
  | .float _ => 0
  | .double _ => 0
  | .str _ => 0
  | .byteArray _ => 0
  | .intArray _ => 0
  | .strArray _ => 0
  | .vector3 _ _ _ => 0
  | .nestedArray xs => hdepthList xs + 1
  | .objectArray xs => vdepthList xs + 1
  | .map ps => vdepthPairs ps + 1

def vdepthList : List Value → Nat
  | [] => 0
  | v :: vs => max (vdepth v) (vdepthList vs)

def vdepthPairs : List (Value × Value) → Nat
  | [] => 0
  | (k, v) :: ps => max (max (vdepth k) (vdepth v)) (vdepthPairs ps)

end

/-! ### Round-trip lemmas -/

theorem okBind {ε α β : Type} (a : α) (f : α → Except ε β) :
    (Except.ok a >>= f : Except ε β) = f a := rfl

theorem errBind {ε α β : Type} (e : ε) (f : α → Except ε β) :
    (Except.error e >>= f : Except ε β) = Except.error e := rfl

theorem readFixed_beBytes (k n : Nat) (r : List Nat) :
    readFixed k (beBytes k n ++ r) = .ok (n % 256 ^ k, r) := by
  have hlen : (beBytes k n).length = k := beBytes_length k n
  have ht : (beBytes k n ++ r).take k = beBytes k n := List.take_left' hlen
  have hd : (beBytes k n ++ r).drop k = r := List.drop_left' hlen
  unfold readFixed
  rw [if_pos (by simp [hlen]), ht, hd, rdN_beBytes]

theorem readChunk_append (p r : List Nat) :
    readChunk p.length (p ++ r) = .ok (p, r) := by
  unfold readChunk
  rw [if_pos (by simp), List.take_left, List.drop_left]

theorem readInts_encoded (xs : List Nat) (r : List Nat) (h : xs.all (· < 256 ^ 4)) :
    readInts xs.length ((xs.map (beBytes 4)).flatten ++ r) = .ok (xs, r) := by
  induction xs with
  | nil => simp [readInts]
  | cons x xs ih =>
    simp only [List.all_cons, Bool.and_eq_true, decide_eq_true_eq] at h
    rw [List.length_cons, readInts]
    simp only [List.map_cons, List.flatten_cons, List.append_assoc, readFixed_beBytes,
      Nat.mod_eq_of_lt h.1, okBind]
    rw [ih h.2]
    rfl

theorem readStrs_encoded (xs : List (List Nat)) (r : List Nat)
    (h : xs.all (fun s => s.length < 256 ^ 2)) :
    readStrs xs.length ((xs.map (fun s => beBytes 2 s.length ++ s)).flatten ++ r) =
      .ok (xs, r) := by
  induction xs with
  | nil => simp [readStrs]
  | cons x xs ih =>
    simp only [List.all_cons, Bool.and_eq_true, decide_eq_true_eq] at h
    rw [List.length_cons, readStrs]
    simp only [List.map_cons, List.flatten_cons, List.append_assoc, readFixed_beBytes,
      Nat.mod_eq_of_lt h.1, okBind, readChunk_append]
    rw [ih h.2]
    rfl

theorem wfList_mem {xs : List Value} {x : Value} (h : wfList xs = true) (hx : x ∈ xs) :
    wf x = true := by
  induction xs with
  | nil => cases hx
  | cons y ys ih =>
    rw [wfList, Bool.and_eq_true] at h
    rcases List.mem_cons.mp hx with rfl | hx'
    · exact h.1
    · exact ih h.2 hx'

theorem wfPairs_mem {ps : List (Value × Value)} {k v : Value}
    (h : wfPairs ps = true) (hx : (k, v) ∈ ps) : wf k = true ∧ wf v = true := by
  induction ps with
  | nil => cases hx
  | cons y ys ih =>
    obtain ⟨yk, yv⟩ := y
    rw [wfPairs, Bool.and_eq_true, Bool.and_eq_true] at h
    rcases List.mem_cons.mp hx with heq | hx'
    · obtain ⟨rfl, rfl⟩ := Prod.mk.injEq .. ▸ heq
      exact ⟨h.1.1, h.1.2⟩
    · exact ih h.2 hx'

theorem vdepthList_mem {xs : List Value} {x : Value} (hx : x ∈ xs) :
    vdepth x ≤ vdepthList xs := by
  induction xs with
  | nil => cases hx
  | cons y ys ih =>
    rw [vdepthList]
    rcases List.mem_cons.mp hx with rfl | hx'
    · exact le_max_left _ _
    · exact le_trans (ih hx') (le_max_right _ _)

theorem vdepthPairs_mem {ps : List (Value × Value)} {k v : Value} (hx : (k, v) ∈ ps) :
    vdepth k ≤ vdepthPairs ps ∧ vdepth v ≤ vdepthPairs ps := by
  induction ps with
  | nil => cases hx
  | cons y ys ih =>
    obtain ⟨yk, yv⟩ := y
    rw [vdepthPairs]
    rcases List.mem_cons.mp hx with heq | hx'
    · obtain ⟨rfl, rfl⟩ := Prod.mk.injEq .. ▸ heq
      exact ⟨le_trans (le_max_left _ _) (le_max_left _ _),
             le_trans (le_max_right _ _) (le_max_left _ _)⟩
    · exact ⟨le_trans (ih hx').1 (le_max_right _ _),
             le_trans (ih hx').2 (le_max_right _ _)⟩

theorem decodeValues_encodeList (f : Nat) (xs : List Value) (r : List Nat)
    (h : ∀ x ∈ xs, ∀ r', decodeValue f (encode x ++ r') = .ok (x, r')) :
    decodeValues f xs.length (encodeList xs ++ r) = .ok (xs, r) := by
  induction xs with
  | nil => simp [decodeValues, encodeList]
  | cons x xs ih =>
    rw [List.length_cons, encodeList, List.append_assoc, decodeValues]
    simp only [h x (List.mem_cons_self x xs), okBind]
    simp only [ih (fun y hy => h y (List.mem_cons_of_mem x hy)), okBind]

theorem decodePairs_encodePairs (f : Nat) (ps : List (Value × Value)) (r : List Nat)
    (h : ∀ p ∈ ps, (∀ r', decodeValue f (encode p.1 ++ r') = .ok (p.1, r')) ∧
      (∀ r', decodeValue f (encode p.2 ++ r') = .ok (p.2, r'))) :
    decodePairs f ps.length (encodePairs ps ++ r) = .ok (ps, r) := by
  induction ps with
  | nil => simp [decodePairs, encodePairs]
  | cons p ps ih =>
    obtain ⟨k, v⟩ := p
    have hk : ∀ r', decodeValue f (encode k ++ r') = .ok (k, r') :=
      (h (k, v) (List.mem_cons_self _ _)).1
    have hv : ∀ r', decodeValue f (encode v ++ r') = .ok (v, r') :=
      (h (k, v) (List.mem_cons_self _ _)).2
    rw [List.length_cons, encodePairs, List.append_assoc, List.append_assoc, decodePairs]
    simp only [hk, okBind]
    simp only [hv, okBind]
    simp only [ih (fun q hq => h q (List.mem_cons_of_mem _ hq)), okBind]

theorem decodeValue_null (f : Nat) (r : List Nat) :
    decodeValue f (tagNull :: r) = .ok (.null, r) := by
  rw [decodeValue.eq_def]
  simp [tagNull]

theorem decodeValue_bool (f b : Nat) (r : List Nat) :
    decodeValue f (tagBool :: b :: r) = .ok (.boolean (b != 0), r) := by
  rw [decodeValue.eq_def]
  norm_num [tagNull, tagBool]

theorem decodeValue_byte (f : Nat) (bs : List Nat) :
    decodeValue f (tagByte :: bs) =
      (do
        let (n, r) ← readFixed 1 bs
        (.ok (.byte n, r) : Except DErr (Value × List Nat))) := by
  rw [decodeValue.eq_def]
  norm_num [tagNull, tagBool, tagByte]

theorem decodeValue_short (f : Nat) (bs : List Nat) :
    decodeValue f (tagShort :: bs) =
      (do
        let (n, r) ← readFixed 2 bs
        (.ok (.short n, r) : Except DErr (Value × List Nat))) := by
  rw [decodeValue.eq_def]
  norm_num [tagNull, tagBool, tagByte, tagShort]

theorem decodeValue_int (f : Nat) (bs : List Nat) :
    decodeValue f (tagInt :: bs) =
      (do
        let (n, r) ← readFixed 4 bs
        (.ok (.int n, r) : Except DErr (Value × List Nat))) := by
  rw [decodeValue.eq_def]
  norm_num [tagNull, tagBool, tagByte, tagShort, tagInt]

theorem decodeValue_long (f : Nat) (bs : List Nat) :
    decodeValue f (tagLong :: bs) =
      (do
        let (n, r) ← readFixed 8 bs
        (.ok (.long n, r) : Except DErr (Value × List Nat))) := by
  rw [decodeValue.eq_def]
  norm_num [tagNull, tagBool, tagByte, tagShort, tagInt, tagLong]

theorem decodeValue_float (f : Nat) (bs : List Nat) :
    decodeValue f (tagFloat :: bs) =
      (do
        let (n, r) ← readFixed 4 bs
        (.ok (.float n, r) : Except DErr (Value × List Nat))) := by
  rw [decodeValue.eq_def]
  norm_num [tagNull, tagBool, tagByte, tagShort, tagInt, tagLong, tagFloat]

theorem decodeValue_double (f : Nat) (bs : List Nat) :
    decodeValue f (tagDouble :: bs) =
      (do
        let (n, r) ← readFixed 8 bs
        (.ok (.double n, r) : Except DErr (Value × List Nat))) := by
  rw [decodeValue.eq_def]
  norm_num [tagNull, tagBool, tagByte, tagShort, tagInt, tagLong, tagFloat, tagDouble]

theorem decodeValue_string (f : Nat) (bs : List Nat) :
    decodeValue f (tagString :: bs) =
      (do
        let (len, r) ← readFixed 2 bs
        let (s, r') ← readChunk len r
        (.ok (.str s, r') : Except DErr (Value × List Nat))) := by
  rw [decodeValue.eq_def]
  norm_num [tagNull, tagBool, tagByte, tagShort, tagInt, tagLong, tagFloat, tagDouble,
    tagString]

theorem decodeValue_byteArray (f : Nat) (bs : List Nat) :
    decodeValue f (tagByteArray :: bs) =
      (do
        let (len, r) ← readFixed 4 bs
        let (s, r') ← readChunk len r
        (.ok (.byteArray s, r') : Except DErr (Value × List Nat))) := by
  rw [decodeValue.eq_def]
  norm_num [tagNull, tagBool, tagByte, tagShort, tagInt, tagLong, tagFloat, tagDouble,
    tagString, tagByteArray]

theorem decodeValue_intArray (f : Nat) (bs : List Nat) :
    decodeValue f (tagArray :: tagInt :: bs) =
      (do
        let (n, r) ← readFixed 2 bs
        if maxCount < n then (.error .countExceeded : Except DErr (Value × List Nat))
        else do
          let (xs, r') ← readInts n r
          .ok (.intArray xs, r')) := by
  rw [decodeValue.eq_def]
  norm_num [tagNull, tagBool, tagByte, tagShort, tagInt, tagLong, tagFloat, tagDouble,
    tagString, tagByteArray, tagArray]

theorem decodeValue_strArray (f : Nat) (bs : List Nat) :
    decodeValue f (tagArray :: tagString :: bs) =
      (do
        let (n, r) ← readFixed 2 bs
        if maxCount < n then (.error .countExceeded : Except DErr (Value × List Nat))
        else do
          let (xs, r') ← readStrs n r
          .ok (.strArray xs, r')) := by
  rw [decodeValue.eq_def]
  norm_num [tagNull, tagBool, tagByte, tagShort, tagInt, tagLong, tagFloat, tagDouble,
    tagString, tagByteArray, tagArray]

theorem decodeValue_objectArray (f : Nat) (bs : List Nat) :
    decodeValue (f + 1) (tagObjectArray :: bs) =
      (do
        let (n, r) ← readFixed 2 bs
        if maxCount < n then (.error .countExceeded : Except DErr (Value × List Nat))
        else do
          let (xs, r') ← decodeValues f n r
          .ok (.objectArray xs, r')) := by
  rw [decodeValue.eq_def]
  norm_num [tagNull, tagBool, tagByte, tagShort, tagInt, tagLong, tagFloat, tagDouble,
    tagString, tagByteArray, tagArray, tagObjectArray]

theorem decodeValue_map (f : Nat) (bs : List Nat) :
    decodeValue (f + 1) (tagMap :: bs) =
      (do
        let (n, r) ← readFixed 2 bs
        if maxCount < n then (.error .countExceeded : Except DErr (Value × List Nat))
        else do
          let (ps, r') ← decodePairs f n r
          .ok (.map ps, r')) := by
  rw [decodeValue.eq_def]
  norm_num [tagNull, tagBool, tagByte, tagShort, tagInt, tagLong, tagFloat, tagDouble,
    tagString, tagByteArray, tagArray, tagObjectArray, tagMap]

theorem decodeValue_vector3 (f : Nat) (bs : List Nat) :
    decodeValue f (tagVector3 :: bs) =
      (do
        let (x, r) ← readFixed 4 bs
        let (y, r') ← readFixed 4 r
        let (z, r'') ← readFixed 4 r'
        (.ok (.vector3 x y z, r'') : Except DErr (Value × List Nat))) := by
  rw [decodeValue.eq_def]
  norm_num [tagNull, tagBool, tagByte, tagShort, tagInt, tagLong, tagFloat, tagDouble,
    tagString, tagByteArray, tagArray, tagObjectArray, tagMap, tagVector3]

theorem wfHomArrList_mem {xs : List HomArr} {a : HomArr}
    (h : wfHomArrList xs = true) (ha : a ∈ xs) : wfHomArr a = true := by
  induction xs with
  | nil => cases ha
  | cons b bs ih =>
    rw [wfHomArrList, Bool.and_eq_true] at h
    rcases List.mem_cons.mp ha with rfl | ha'
    · exact h.1
    · exact ih h.2 ha'

theorem hdepthList_mem {xs : List HomArr} {a : HomArr} (ha : a ∈ xs) :
    hdepth a ≤ hdepthList xs := by
  induction xs with
  | nil => cases ha
  | cons b bs ih =>
    rw [hdepthList]
    rcases List.mem_cons.mp ha with rfl | ha'
    · exact le_max_left _ _
    · exact le_trans (ih ha') (le_max_right _ _)

theorem readHomArr_ints (f : Nat) (bs : List Nat) :
    readHomArr f (tagInt :: bs) =
      (do
        let (n, r) ← readFixed 2 bs
        if maxCount < n then (.error .countExceeded : Except DErr (HomArr × List Nat))
        else do
          let (xs, r') ← readInts n r
          .ok (.ints xs, r')) := by
  rw [readHomArr.eq_def]
  norm_num [tagInt]

theorem readHomArr_strs (f : Nat) (bs : List Nat) :
    readHomArr f (tagString :: bs) =
      (do
        let (n, r) ← readFixed 2 bs
        if maxCount < n then (.error .countExceeded : Except DErr (HomArr × List Nat))
        else do
          let (xs, r') ← readStrs n r
          .ok (.strs xs, r')) := by
  rw [readHomArr.eq_def]
  norm_num [tagInt, tagString]

theorem readHomArr_nested (g : Nat) (bs : List Nat) :
    readHomArr (g + 1) (tagArray :: bs) =
      (do
        let (n, r) ← readFixed 2 bs
        if maxCount < n then (.error .countExceeded : Except DErr (HomArr × List Nat))
        else do
          let (as, r') ← readHomArrs g n r
          .ok (.nested as, r')) := by
  rw [readHomArr.eq_def]
  norm_num [tagInt, tagString, tagArray]

theorem readHomArrs_encodeHomArrList (f : Nat) (as : List HomArr) (r : List Nat)
    (h : ∀ a ∈ as, ∀ r', readHomArr f (encodeHomArr a ++ r') = .ok (a, r')) :
    readHomArrs f as.length (encodeHomArrList as ++ r) = .ok (as, r) := by
  induction as with
  | nil => simp [readHomArrs, encodeHomArrList]
  | cons a as ih =>
    rw [List.length_cons, encodeHomArrList, List.append_assoc, readHomArrs]
    simp only [h a (List.mem_cons_self a as), okBind]
    simp only [ih (fun b hb => h b (List.mem_cons_of_mem a hb)), okBind]

/-- Round trip for one untagged homogeneous-array element: with fuel at
least its nesting depth, reading back its wire form returns it exactly. -/
theorem homRoundtripAux :
    ∀ (N : Nat) (a : HomArr), sizeOf a ≤ N → wfHomArr a = true →
      ∀ (f : Nat), hdepth a ≤ f → ∀ (r : List Nat),
        readHomArr f (encodeHomArr a ++ r) = .ok (a, r) := by
  intro N
  induction N with
  | zero =>
    intro a hsz
    exact absurd hsz (by cases a <;> simp)
  | succ N ih =>
    intro a hsz hwf f hd r
    cases a with
    | ints xs =>
      rw [wfHomArr, Bool.and_eq_true] at hwf
      have hlen : xs.length ≤ maxCount := by simpa using hwf.1
      have hlt : xs.length < 256 ^ 2 := by
        have : maxCount < 256 ^ 2 := by norm_num [maxCount]
        omega
      rw [encodeHomArr]
      simp only [List.cons_append, List.append_assoc]
      rw [readHomArr_ints]
      simp only [readFixed_beBytes, okBind, Nat.mod_eq_of_lt hlt]
      rw [if_neg (by omega)]
      simp only [readInts_encoded xs r hwf.2, okBind]
    | strs xs =>
      rw [wfHomArr, Bool.and_eq_true] at hwf
      have hlen : xs.length ≤ maxCount := by simpa using hwf.1
      have hlt : xs.length < 256 ^ 2 := by
        have : maxCount < 256 ^ 2 := by norm_num [maxCount]
        omega
      rw [encodeHomArr]
      simp only [List.cons_append, List.append_assoc]
      rw [readHomArr_strs]
      simp only [readFixed_beBytes, okBind, Nat.mod_eq_of_lt hlt]
      rw [if_neg (by omega)]
      simp only [readStrs_encoded xs r hwf.2, okBind]
    | nested xs =>
      rw [wfHomArr, Bool.and_eq_true] at hwf
      have hlen : xs.length ≤ maxCount := by simpa using hwf.1
      have hlt : xs.length < 256 ^ 2 := by
        have : maxCount < 256 ^ 2 := by norm_num [maxCount]
        omega
      rw [hdepth] at hd
      obtain ⟨g, rfl⟩ : ∃ g, f = g + 1 := ⟨f - 1, by omega⟩
      have hdl : hdepthList xs ≤ g := by omega
      have helts : ∀ a ∈ xs, ∀ r', readHomArr g (encodeHomArr a ++ r') = .ok (a, r') := by
        intro a ha r'
        have h1 : sizeOf a < sizeOf xs := List.sizeOf_lt_of_mem ha
        have h2 : sizeOf (HomArr.nested xs) = 1 + sizeOf xs := by simp
        exact ih a (by omega) (wfHomArrList_mem hwf.2 ha) g
          (le_trans (hdepthList_mem ha) hdl) r'
      rw [encodeHomArr]
      simp only [List.cons_append, List.append_assoc]
      rw [readHomArr_nested]
      simp only [readFixed_beBytes, okBind, Nat.mod_eq_of_lt hlt]
      rw [if_neg (by omega)]
      simp only [readHomArrs_encodeHomArrList g xs r helts, okBind]

theorem decodeValue_nestedArray (f : Nat) (bs : List Nat) :
    decodeValue (f + 1) (tagArray :: tagArray :: bs) =
      (do
        let (n, r) ← readFixed 2 bs
        if maxCount < n then (.error .countExceeded : Except DErr (Value × List Nat))
        else do
          let (as, r') ← readHomArrs f n r
          .ok (.nestedArray as, r')) := by
  rw [decodeValue.eq_def]
  norm_num [tagNull, tagBool, tagByte, tagShort, tagInt, tagLong, tagFloat, tagDouble,
    tagString, tagByteArray, tagArray]

/-- The round-trip workhorse: decoding the encoding of any well-formed
value, with any fuel at least its nesting depth and any trailing bytes,
returns exactly the value and leaves exactly the trailing bytes. -/
theorem roundtripAux :
    ∀ (N : Nat) (v : Value), sizeOf v ≤ N → wf v = true →
      ∀ (f : Nat), vdepth v ≤ f → ∀ (r : List Nat),
        decodeValue f (encode v ++ r) = .ok (v, r) := by
  intro N
  induction N with
  | zero =>
    intro v hsz
    exact absurd hsz (by cases v <;> simp)
  | succ N ih =>
    intro v hsz hwf f hd r
    cases v with
    | null =>
      rw [encode]
      simp only [List.cons_append, List.nil_append]
      rw [decodeValue_null]
    | boolean b =>
      rw [encode]
      simp only [List.cons_append, List.nil_append]
      rw [decodeValue_bool]
      cases b <;> simp
    | byte n =>
      rw [wf] at hwf
      simp only [decide_eq_true_eq] at hwf
      rw [encode]
      simp only [List.cons_append, List.append_assoc]
      rw [decodeValue_byte]
      simp only [readFixed_beBytes, okBind, Nat.mod_eq_of_lt (show n < 256 ^ 1 by simpa using hwf)]
    | short n =>
      rw [wf] at hwf
      simp only [decide_eq_true_eq] at hwf
      rw [encode]
      simp only [List.cons_append, List.append_assoc]
      rw [decodeValue_short]
      simp only [readFixed_beBytes, okBind, Nat.mod_eq_of_lt hwf]
    | int n =>
      rw [wf] at hwf
      simp only [decide_eq_true_eq] at hwf
      rw [encode]
      simp only [List.cons_append, List.append_assoc]
      rw [decodeValue_int]
      simp only [readFixed_beBytes, okBind, Nat.mod_eq_of_lt hwf]
    | long n =>
      rw [wf] at hwf
      simp only [decide_eq_true_eq] at hwf
      rw [encode]
      simp only [List.cons_append, List.append_assoc]
      rw [decodeValue_long]
      simp only [readFixed_beBytes, okBind, Nat.mod_eq_of_lt hwf]
    | float bits =>
      rw [wf] at hwf
      simp only [decide_eq_true_eq] at hwf
      rw [encode]
      simp only [List.cons_append, List.append_assoc]
      rw [decodeValue_float]
      simp only [readFixed_beBytes, okBind, Nat.mod_eq_of_lt hwf]
    | double bits =>
      rw [wf] at hwf
      simp only [decide_eq_true_eq] at hwf
      rw [encode]
      simp only [List.cons_append, List.append_assoc]
      rw [decodeValue_double]
      simp only [readFixed_beBytes, okBind, Nat.mod_eq_of_lt hwf]
    | str bs =>
      rw [wf] at hwf
      simp only [decide_eq_true_eq] at hwf
      rw [encode]
      simp only [List.cons_append, List.append_assoc]
      rw [decodeValue_string]
      simp only [readFixed_beBytes, okBind, Nat.mod_eq_of_lt hwf, readChunk_append]
    | byteArray bs =>
      rw [wf] at hwf
      simp only [decide_eq_true_eq] at hwf
      rw [encode]
      simp only [List.cons_append, List.append_assoc]
      rw [decodeValue_byteArray]
      simp only [readFixed_beBytes, okBind, Nat.mod_eq_of_lt hwf, readChunk_append]
    | intArray xs =>
      rw [wf, Bool.and_eq_true] at hwf
      have hlen : xs.length ≤ maxCount := by simpa using hwf.1
      have hlt : xs.length < 256 ^ 2 := by
        have : maxCount < 256 ^ 2 := by norm_num [maxCount]
        omega
      rw [encode]
      simp only [List.cons_append, List.append_assoc]
      rw [decodeValue_intArray]
      simp only [readFixed_beBytes, okBind, Nat.mod_eq_of_lt hlt]
      rw [if_neg (by omega)]
      simp only [readInts_encoded xs r hwf.2, okBind]
    | strArray xs =>
      rw [wf, Bool.and_eq_true] at hwf
      have hlen : xs.length ≤ maxCount := by simpa using hwf.1
      have hlt : xs.length < 256 ^ 2 := by
        have : maxCount < 256 ^ 2 := by norm_num [maxCount]
        omega
      rw [encode]
      simp only [List.cons_append, List.append_assoc]
      rw [decodeValue_strArray]
      simp only [readFixed_beBytes, okBind, Nat.mod_eq_of_lt hlt]
      rw [if_neg (by omega)]
      simp only [readStrs_encoded xs r hwf.2, okBind]
    | nestedArray xs =>
      rw [wf, Bool.and_eq_true] at hwf
      have hlen : xs.length ≤ maxCount := by simpa using hwf.1
      have hlt : xs.length < 256 ^ 2 := by
        have : maxCount < 256 ^ 2 := by norm_num [maxCount]
        omega
      rw [vdepth] at hd
      obtain ⟨f', rfl⟩ : ∃ f', f = f' + 1 := ⟨f - 1, by omega⟩
      have hdl : hdepthList xs ≤ f' := by omega
      have helts : ∀ a ∈ xs, ∀ r', readHomArr f' (encodeHomArr a ++ r') = .ok (a, r') := by
        intro a ha r'
        exact homRoundtripAux (sizeOf a) a le_rfl (wfHomArrList_mem hwf.2 ha) f'
          (le_trans (hdepthList_mem ha) hdl) r'
      rw [encode]
      simp only [List.cons_append, List.append_assoc]
      rw [decodeValue_nestedArray]
      simp only [readFixed_beBytes, okBind, Nat.mod_eq_of_lt hlt]
      rw [if_neg (by omega)]
      simp only [readHomArrs_encodeHomArrList f' xs r helts, okBind]
    | objectArray xs =>
      rw [wf, Bool.and_eq_true] at hwf
      have hlen : xs.length ≤ maxCount := by simpa using hwf.1
      have hlt : xs.length < 256 ^ 2 := by
        have : maxCount < 256 ^ 2 := by norm_num [maxCount]
        omega
      rw [vdepth] at hd
      obtain ⟨f', rfl⟩ : ∃ f', f = f' + 1 := ⟨f - 1, by omega⟩
      have hdl : vdepthList xs ≤ f' := by omega
      have helts : ∀ x ∈ xs, ∀ r', decodeValue f' (encode x ++ r') = .ok (x, r') := by
        intro x hx r'
        have h1 : sizeOf x < sizeOf xs := List.sizeOf_lt_of_mem hx
        have h2 : sizeOf (Value.objectArray xs) = 1 + sizeOf xs := by simp
        exact ih x (by omega) (wfList_mem hwf.2 hx) f'
          (le_trans (vdepthList_mem hx) hdl) r'
      rw [encode]
      simp only [List.cons_append, List.append_assoc]
      rw [decodeValue_objectArray]
      simp only [readFixed_beBytes, okBind, Nat.mod_eq_of_lt hlt]
      rw [if_neg (by omega)]
      simp only [decodeValues_encodeList f' xs r helts, okBind]
    | map ps =>
      rw [wf, Bool.and_eq_true] at hwf
      have hlen : ps.length ≤ maxCount := by simpa using hwf.1
      have hlt : ps.length < 256 ^ 2 := by
        have : maxCount < 256 ^ 2 := by norm_num [maxCount]
        omega
      rw [vdepth] at hd
      obtain ⟨f', rfl⟩ : ∃ f', f = f' + 1 := ⟨f - 1, by omega⟩
      have hdl : vdepthPairs ps ≤ f' := by omega
      have helts : ∀ p ∈ ps, (∀ r', decodeValue f' (encode p.1 ++ r') = .ok (p.1, r')) ∧
          (∀ r', decodeValue f' (encode p.2 ++ r') = .ok (p.2, r')) := by
        intro p hp
        obtain ⟨k, v⟩ := p
        have hkv := wfPairs_mem hwf.2 hp
        have hdp := vdepthPairs_mem hp
        have hszp : sizeOf (k, v) < sizeOf ps := List.sizeOf_lt_of_mem hp
        have hmk : sizeOf (Value.map ps) = 1 + sizeOf ps := by simp
        have hpk : sizeOf (k, v) = 1 + sizeOf k + sizeOf v := by simp
        constructor
        · intro r'
          exact ih k (by omega) hkv.1 f' (le_trans hdp.1 hdl) r'
        · intro r'
          exact ih v (by omega) hkv.2 f' (le_trans hdp.2 hdl) r'
      rw [encode]
      simp only [List.cons_append, List.append_assoc]
      rw [decodeValue_map]
      simp only [readFixed_beBytes, okBind, Nat.mod_eq_of_lt hlt]
      rw [if_neg (by omega)]
      simp only [decodePairs_encodePairs f' ps r helts, okBind]
    | vector3 x y z =>
      rw [wf, Bool.and_eq_true, Bool.and_eq_true] at hwf
      simp only [decide_eq_true_eq] at hwf
      rw [encode]
      simp only [List.cons_append, List.append_assoc]
      rw [decodeValue_vector3]
      simp only [readFixed_beBytes, okBind, Nat.mod_eq_of_lt hwf.1.1,
        Nat.mod_eq_of_lt hwf.1.2, Nat.mod_eq_of_lt hwf.2]

/-- Fuel 0 fails closed on entering a Map. -/
theorem decodeValue_map_zero (bs : List Nat) :
    decodeValue 0 (tagMap :: bs) = .error .depthExceeded := by
  rw [decodeValue.eq_def]
  norm_num [tagNull, tagBool, tagByte, tagShort, tagInt, tagLong, tagFloat, tagDouble,
    tagString, tagByteArray, tagArray, tagObjectArray, tagMap]

/-- The wire image of a map nested `k + 1` levels deep: each level is a
map with a single pair whose key is Null and whose value is the next
level; the innermost value is Null. -/
def deepMapBytes : Nat → List Nat
  | 0 => encode .null
  | k + 1 => tagMap :: (beBytes 2 1 ++ (encode .null ++ deepMapBytes k))

/-- Any fuel budget at most the remaining nesting is exhausted before the
innermost map: the decoder fails closed instead of recursing further. -/
theorem deepMapBytes_depthExceeded :
    ∀ (f k : Nat), f ≤ k → decodeValue f (deepMapBytes (k + 1)) = .error .depthExceeded := by
  intro f
  induction f with
  | zero =>
    intro k _
    rw [deepMapBytes, decodeValue_map_zero]
  | succ f ih =>
    intro k hk
    obtain ⟨k', rfl⟩ : ∃ k', k = k' + 1 := ⟨k - 1, by omega⟩
    rw [deepMapBytes, decodeValue_map]
    simp only [readFixed_beBytes, okBind]
    norm_num [maxCount]
    rw [decodePairs]
    have hnull : decodeValue f (encode .null ++ deepMapBytes (k' + 1)) =
        .ok (.null, deepMapBytes (k' + 1)) := by
      rw [encode]
      simp only [List.cons_append, List.nil_append]
      rw [decodeValue_null]
    simp only [hnull, okBind, ih k' (by omega), errBind]

/-- A 10-byte buffer whose ObjectArray header declares 65 000 elements
(`253 * 256 + 232 = 65000`). -/
def oversizedArrayHeader : List Nat :=
  [tagObjectArray, 253, 232, 0, 0, 0, 0, 0, 0, 0]

theorem oversizedArrayHeader_countExceeded :
    decode oversizedArrayHeader = .error .countExceeded := by
  unfold decode
  rw [show maxDepth = 31 + 1 from rfl,
    show oversizedArrayHeader = tagObjectArray :: [253, 232, 0, 0, 0, 0, 0, 0, 0] from rfl,
    decodeValue_objectArray]
  norm_num [readFixed, rdN, maxCount]
  simp [okBind]

mutual

/-- Every declared element count inside a homogeneous-array element is
within the codec's `maxCount` bound. -/
def countsOkHom : HomArr → Bool
  | .ints xs => xs.length ≤ maxCount
  | .strs xs => xs.length ≤ maxCount
  | .nested xs => xs.length ≤ maxCount && countsOkHomList xs

def countsOkHomList : List HomArr → Bool
  | [] => true
  | a :: as => countsOkHom a && countsOkHomList as

end

mutual

/-- Every declared element/pair count inside a value is within the
codec's `maxCount` bound. -/
def countsOk : Value → Bool
  | .null => true
  | .boolean _ => true
  | .byte _ => true
  | .short _ => true
  | .int _ => true
  | .long _ => true
  | .float _ => true
  | .double _ => true
  | .str _ => true
  | .byteArray _ => true
  | .vector3 _ _ _ => true
  | .intArray xs => xs.length ≤ maxCount
  | .strArray xs => xs.length ≤ maxCount
  | .nestedArray xs => xs.length ≤ maxCount && countsOkHomList xs
  | .objectArray xs => xs.length ≤ maxCount && countsOkList xs
  | .map ps => ps.length ≤ maxCount && countsOkPairs ps

def countsOkList : List Value → Bool
  | [] => true
  | v :: vs => countsOk v && countsOkList vs

def countsOkPairs : List (Value × Value) → Bool
  | [] => true
  | (k, v) :: ps => countsOk k && countsOk v && countsOkPairs ps

end

theorem countsOkHomList_of {as : List HomArr}
    (h : ∀ a ∈ as, countsOkHom a = true) : countsOkHomList as = true := by
  induction as with
  | nil => rfl
  | cons a as ih =>
    rw [countsOkHomList, Bool.and_eq_true]
    exact ⟨h a (List.mem_cons_self a as),
           ih (fun b hb => h b (List.mem_cons_of_mem a hb))⟩

theorem countsOkList_of {vs : List Value}
    (h : ∀ v ∈ vs, countsOk v = true) : countsOkList vs = true := by
  induction vs with
  | nil => rfl
  | cons v vs ih =>
    rw [countsOkList, Bool.and_eq_true]
    exact ⟨h v (List.mem_cons_self v vs),
           ih (fun w hw => h w (List.mem_cons_of_mem v hw))⟩

theorem countsOkPairs_of {ps : List (Value × Value)}
    (h : ∀ p ∈ ps, countsOk p.1 = true ∧ countsOk p.2 = true) :
    countsOkPairs ps = true := by
  induction ps with
  | nil => rfl
  | cons p ps ih =>
    obtain ⟨k, v⟩ := p
    rw [countsOkPairs, Bool.and_eq_true, Bool.and_eq_true]
    exact ⟨⟨(h (k, v) (List.mem_cons_self _ _)).1, (h (k, v) (List.mem_cons_self _ _)).2⟩,
           ih (fun q hq => h q (List.mem_cons_of_mem _ hq))⟩

theorem hdepthList_le {as : List HomArr} {g : Nat}
    (h : ∀ a ∈ as, hdepth a ≤ g) : hdepthList as ≤ g := by
  induction as with
  | nil => simp [hdepthList]
  | cons a as ih =>
    rw [hdepthList]
    exact max_le (h a (List.mem_cons_self a as))
      (ih (fun b hb => h b (List.mem_cons_of_mem a hb)))

theorem vdepthList_le {vs : List Value} {g : Nat}
    (h : ∀ v ∈ vs, vdepth v ≤ g) : vdepthList vs ≤ g := by
  induction vs with
  | nil => simp [vdepthList]
  | cons v vs ih =>
    rw [vdepthList]
    exact max_le (h v (List.mem_cons_self v vs))
      (ih (fun w hw => h w (List.mem_cons_of_mem v hw)))

theorem vdepthPairs_le {ps : List (Value × Value)} {g : Nat}
    (h : ∀ p ∈ ps, vdepth p.1 ≤ g ∧ vdepth p.2 ≤ g) : vdepthPairs ps ≤ g := by
  induction ps with
  | nil => simp [vdepthPairs]
  | cons p ps ih =>
    obtain ⟨k, v⟩ := p
    rw [vdepthPairs]
    exact max_le (max_le (h (k, v) (List.mem_cons_self _ _)).1
        (h (k, v) (List.mem_cons_self _ _)).2)
      (ih (fun q hq => h q (List.mem_cons_of_mem _ hq)))

/-- An ok-result of a bind comes from an ok-result of its first stage. -/
theorem bindOkElim {α β : Type} {m : Except DErr α} {f : α → Except DErr β} {b : β}
    (h : (m >>= f) = .ok b) : ∃ a, m = .ok a ∧ f a = .ok b := by
  cases m with
  | error e =>
    rw [errBind] at h
    exact absurd h (by simp)
  | ok a =>
    rw [okBind] at h
    exact ⟨a, rfl, h⟩

theorem readFixed_ok {k : Nat} {bs : List Nat} {n : Nat} {rest : List Nat}
    (h : readFixed k bs = .ok (n, rest)) : rest = bs.drop k := by
  unfold readFixed at h
  split at h
  · simp only [Except.ok.injEq, Prod.mk.injEq] at h
    exact h.2.symm
  · exact absurd h (by simp)

theorem readFixed_len {k : Nat} {bs : List Nat} {n : Nat} {rest : List Nat}
    (h : readFixed k bs = .ok (n, rest)) : rest.length ≤ bs.length := by
  rw [readFixed_ok h, List.length_drop]
  omega

theorem readChunk_ok {k : Nat} {bs : List Nat} {c : List Nat} {rest : List Nat}
    (h : readChunk k bs = .ok (c, rest)) : rest = bs.drop k := by
  unfold readChunk at h
  split at h
  · simp only [Except.ok.injEq, Prod.mk.injEq] at h
    exact h.2.symm
  · exact absurd h (by simp)

theorem readChunk_len {k : Nat} {bs : List Nat} {c : List Nat} {rest : List Nat}
    (h : readChunk k bs = .ok (c, rest)) : rest.length ≤ bs.length := by
  rw [readChunk_ok h, List.length_drop]
  omega

theorem readInts_sound :
    ∀ (n : Nat) (bs xs rest : List Nat), readInts n bs = .ok (xs, rest) →
      xs.length = n ∧ rest.length ≤ bs.length := by
  intro n
  induction n with
  | zero =>
    intro bs xs rest h
    rw [readInts] at h
    simp only [Except.ok.injEq, Prod.mk.injEq] at h
    obtain ⟨h1, h2⟩ := h
    subst h1; subst h2
    simp
  | succ n ih =>
    intro bs xs rest h
    rw [readInts] at h
    obtain ⟨⟨x, r⟩, hrf, h⟩ := bindOkElim h
    obtain ⟨⟨xs', r'⟩, hri, h⟩ := bindOkElim h
    simp only [Except.ok.injEq, Prod.mk.injEq] at h
    obtain ⟨h1, h2⟩ := h
    subst h1; subst h2
    have hr := ih r xs' r' hri
    have hf := readFixed_len hrf
    exact ⟨by simp [hr.1], by omega⟩

theorem readStrs_sound :
    ∀ (n : Nat) (bs : List Nat) (xs : List (List Nat)) (rest : List Nat),
      readStrs n bs = .ok (xs, rest) → xs.length = n ∧ rest.length ≤ bs.length := by
  intro n
  induction n with
  | zero =>
    intro bs xs rest h
    rw [readStrs] at h
    simp only [Except.ok.injEq, Prod.mk.injEq] at h
    obtain ⟨h1, h2⟩ := h
    subst h1; subst h2
    simp
  | succ n ih =>
    intro bs xs rest h
    rw [readStrs] at h
    obtain ⟨⟨len, r⟩, hrf, h⟩ := bindOkElim h
    obtain ⟨⟨c, r'⟩, hrc, h⟩ := bindOkElim h
    obtain ⟨⟨xs', r''⟩, hrs, h⟩ := bindOkElim h
    simp only [Except.ok.injEq, Prod.mk.injEq] at h
    obtain ⟨h1, h2⟩ := h
    subst h1; subst h2
    have hr := ih r' xs' r'' hrs
    have hf := readFixed_len hrf
    have hc := readChunk_len hrc
    exact ⟨by simp [hr.1], by omega⟩

/-- Soundness of `readHomArr` at one fuel level: any successfully read
homogeneous-array element respects the count bound everywhere, its
nesting depth is within the fuel spent, and no bytes beyond the buffer
were consumed. -/
def HASound (fuel : Nat) : Prop :=
  ∀ (bs : List Nat) (a : HomArr) (rest : List Nat),
    readHomArr fuel bs = .ok (a, rest) →
    countsOkHom a = true ∧ hdepth a ≤ fuel ∧ rest.length ≤ bs.length

theorem readHomArrsSoundOf (g : Nat) (Hg : HASound g) :
    ∀ (n : Nat) (bs : List Nat) (as : List HomArr) (rest : List Nat),
      readHomArrs g n bs = .ok (as, rest) →
      as.length = n ∧ (∀ a ∈ as, countsOkHom a = true ∧ hdepth a ≤ g) ∧
        rest.length ≤ bs.length := by
  intro n
  induction n with
  | zero =>
    intro bs as rest h
    rw [readHomArrs] at h
    simp only [Except.ok.injEq, Prod.mk.injEq] at h
    obtain ⟨h1, h2⟩ := h
    subst h1; subst h2
    simp
  | succ n ih =>
    intro bs as rest h
    rw [readHomArrs] at h
    obtain ⟨⟨a, r⟩, hra, h⟩ := bindOkElim h
    obtain ⟨⟨as', r'⟩, hras, h⟩ := bindOkElim h
    simp only [Except.ok.injEq, Prod.mk.injEq] at h
    obtain ⟨h1, h2⟩ := h
    subst h1; subst h2
    have ha := Hg bs a r hra
    have has := ih r as' r' hras
    refine ⟨by simp [has.1], ?_, by omega⟩
    intro b hb
    rcases List.mem_cons.mp hb with rfl | hb'
    · exact ⟨ha.1, ha.2.1⟩
    · exact has.2.1 b hb'

theorem readHomArrSound : ∀ (fuel : Nat), HASound fuel := by
  intro fuel
  induction fuel using Nat.strong_induction_on with
  | _ fuel IH =>
    intro bs a rest h
    rw [readHomArr.eq_def] at h
    match bs with
    | [] => exact absurd h (by simp)
    | et :: r0 =>
      simp only at h
      split_ifs at h with h1 h2 h3
      · -- integer elements
        obtain ⟨⟨n, r⟩, hrf, h⟩ := bindOkElim h
        by_cases hc : maxCount < n
        · rw [if_pos hc] at h
          exact absurd h (by simp)
        · rw [if_neg hc] at h
          obtain ⟨⟨xs, r'⟩, hri, h⟩ := bindOkElim h
          simp only [Except.ok.injEq, Prod.mk.injEq] at h
          obtain ⟨ha, hr⟩ := h
          subst ha; subst hr
          have hs := readInts_sound n r xs r' hri
          have hf := readFixed_len hrf
          refine ⟨?_, by simp [hdepth], by simp; omega⟩
          rw [countsOkHom]
          simp only [decide_eq_true_eq]
          omega
      · -- string elements
        obtain ⟨⟨n, r⟩, hrf, h⟩ := bindOkElim h
        by_cases hc : maxCount < n
        · rw [if_pos hc] at h
          exact absurd h (by simp)
        · rw [if_neg hc] at h
          obtain ⟨⟨xs, r'⟩, hrs, h⟩ := bindOkElim h
          simp only [Except.ok.injEq, Prod.mk.injEq] at h
          obtain ⟨ha, hr⟩ := h
          subst ha; subst hr
          have hs := readStrs_sound n r xs r' hrs
          have hf := readFixed_len hrf
          refine ⟨?_, by simp [hdepth], by simp; omega⟩
          rw [countsOkHom]
          simp only [decide_eq_true_eq]
          omega
      · -- nested array elements
        cases fuel with
        | zero => exact absurd h (by simp)
        | succ g =>
          obtain ⟨⟨n, r⟩, hrf, h⟩ := bindOkElim h
          by_cases hc : maxCount < n
          · rw [if_pos hc] at h
            exact absurd h (by simp)
          · rw [if_neg hc] at h
            obtain ⟨⟨as, r'⟩, hras, h⟩ := bindOkElim h
            simp only [Except.ok.injEq, Prod.mk.injEq] at h
            obtain ⟨ha, hr⟩ := h
            subst ha; subst hr
            have hs := readHomArrsSoundOf g (IH g (by omega)) n r as r' hras
            have hf := readFixed_len hrf
            refine ⟨?_, ?_, by simp; omega⟩
            · rw [countsOkHom, Bool.and_eq_true]
              refine ⟨by simp only [decide_eq_true_eq]; omega,
                countsOkHomList_of (fun b hb => (hs.2.1 b hb).1)⟩
            · rw [hdepth]
              have := hdepthList_le (fun b hb => (hs.2.1 b hb).2)
              omega

/-- Soundness of `decodeValue` at one fuel level: any successfully
decoded value respects the count bound everywhere, its container nesting
depth is within the fuel spent, and no bytes beyond the buffer were
consumed. -/
def DVSound (fuel : Nat) : Prop :=
  ∀ (bs : List Nat) (v : Value) (rest : List Nat),
    decodeValue fuel bs = .ok (v, rest) →
    countsOk v = true ∧ vdepth v ≤ fuel ∧ rest.length ≤ bs.length

theorem decodeValuesSoundOf (g : Nat) (Hg : DVSound g) :
    ∀ (n : Nat) (bs : List Nat) (vs : List Value) (rest : List Nat),
      decodeValues g n bs = .ok (vs, rest) →
      vs.length = n ∧ (∀ v ∈ vs, countsOk v = true ∧ vdepth v ≤ g) ∧
        rest.length ≤ bs.length := by
  intro n
  induction n with
  | zero =>
    intro bs vs rest h
    rw [decodeValues] at h
    simp only [Except.ok.injEq, Prod.mk.injEq] at h
    obtain ⟨h1, h2⟩ := h
    subst h1; subst h2
    simp
  | succ n ih =>
    intro bs vs rest h
    rw [decodeValues] at h
    obtain ⟨⟨v, r⟩, hdv, h⟩ := bindOkElim h
    obtain ⟨⟨vs', r'⟩, hdvs, h⟩ := bindOkElim h
    simp only [Except.ok.injEq, Prod.mk.injEq] at h
    obtain ⟨h1, h2⟩ := h
    subst h1; subst h2
    have hv := Hg bs v r hdv
    have hvs := ih r vs' r' hdvs
    refine ⟨by simp [hvs.1], ?_, by omega⟩
    intro w hw
    rcases List.mem_cons.mp hw with rfl | hw'
    · exact ⟨hv.1, hv.2.1⟩
    · exact hvs.2.1 w hw'

theorem decodePairsSoundOf (g : Nat) (Hg : DVSound g) :
    ∀ (n : Nat) (bs : List Nat) (ps : List (Value × Value)) (rest : List Nat),
      decodePairs g n bs = .ok (ps, rest) →
      ps.length = n ∧
        (∀ p ∈ ps, (countsOk p.1 = true ∧ vdepth p.1 ≤ g) ∧
          (countsOk p.2 = true ∧ vdepth p.2 ≤ g)) ∧
        rest.length ≤ bs.length := by
  intro n
  induction n with
  | zero =>
    intro bs ps rest h
    rw [decodePairs] at h
    simp only [Except.ok.injEq, Prod.mk.injEq] at h
    obtain ⟨h1, h2⟩ := h
    subst h1; subst h2
    simp
  | succ n ih =>
    intro bs ps rest h
    rw [decodePairs] at h
    obtain ⟨⟨k, r⟩, hdk, h⟩ := bindOkElim h
    obtain ⟨⟨v, r'⟩, hdv, h⟩ := bindOkElim h
    obtain ⟨⟨ps', r''⟩, hdps, h⟩ := bindOkElim h
    simp only [Except.ok.injEq, Prod.mk.injEq] at h
    obtain ⟨h1, h2⟩ := h
    subst h1; subst h2
    have hk := Hg bs k r hdk
    have hv := Hg r v r' hdv
    have hps := ih r' ps' r'' hdps
    refine ⟨by simp [hps.1], ?_, by omega⟩
    intro q hq
    rcases List.mem_cons.mp hq with rfl | hq'
    · exact ⟨⟨hk.1, hk.2.1⟩, ⟨hv.1, hv.2.1⟩⟩
    · exact hps.2.1 q hq'

theorem decodeValueSound : ∀ (fuel : Nat), DVSound fuel := by
  intro fuel
  induction fuel using Nat.strong_induction_on with
  | _ fuel IH =>
    intro bs v rest h
    rw [decodeValue.eq_def] at h
    match bs with
    | [] => exact absurd h (by simp)
    | t :: bs' =>
      simp only at h
      by_cases c1 : t = tagNull
      case pos =>
        rw [if_pos c1] at h
        simp only [Except.ok.injEq, Prod.mk.injEq] at h
        obtain ⟨hv, hr⟩ := h
        subst hv; subst hr
        exact ⟨by simp [countsOk], by simp [vdepth], by simp⟩
      rw [if_neg c1] at h
      by_cases c2 : t = tagBool
      case pos =>
        rw [if_pos c2] at h
        match bs', h with
        | b :: r, h =>
          simp only [Except.ok.injEq, Prod.mk.injEq] at h
          obtain ⟨hv, hr⟩ := h
          subst hv; subst hr
          exact ⟨by simp [countsOk], by simp [vdepth], by simp; omega⟩
      rw [if_neg c2] at h
      by_cases c3 : t = tagByte
      case pos =>
        rw [if_pos c3] at h
        obtain ⟨⟨n, r⟩, hrf, h⟩ := bindOkElim h
        simp only [Except.ok.injEq, Prod.mk.injEq] at h
        obtain ⟨hv, hr⟩ := h
        subst hv; subst hr
        have := readFixed_len hrf
        exact ⟨by simp [countsOk], by simp [vdepth], by simp; omega⟩
      rw [if_neg c3] at h
      by_cases c4 : t = tagShort
      case pos =>
        rw [if_pos c4] at h
        obtain ⟨⟨n, r⟩, hrf, h⟩ := bindOkElim h
        simp only [Except.ok.injEq, Prod.mk.injEq] at h
        obtain ⟨hv, hr⟩ := h
        subst hv; subst hr
        have := readFixed_len hrf
        exact ⟨by simp [countsOk], by simp [vdepth], by simp; omega⟩
      rw [if_neg c4] at h
      by_cases c5 : t = tagInt
      case pos =>
        rw [if_pos c5] at h
        obtain ⟨⟨n, r⟩, hrf, h⟩ := bindOkElim h
        simp only [Except.ok.injEq, Prod.mk.injEq] at h
        obtain ⟨hv, hr⟩ := h
        subst hv; subst hr
        have := readFixed_len hrf
        exact ⟨by simp [countsOk], by simp [vdepth], by simp; omega⟩
      rw [if_neg c5] at h
      by_cases c6 : t = tagLong
      case pos =>
        rw [if_pos c6] at h
        obtain ⟨⟨n, r⟩, hrf, h⟩ := bindOkElim h
        simp only [Except.ok.injEq, Prod.mk.injEq] at h
        obtain ⟨hv, hr⟩ := h
        subst hv; subst hr
        have := readFixed_len hrf
        exact ⟨by simp [countsOk], by simp [vdepth], by simp; omega⟩
      rw [if_neg c6] at h
      by_cases c7 : t = tagFloat
      case pos =>
        rw [if_pos c7] at h
        obtain ⟨⟨n, r⟩, hrf, h⟩ := bindOkElim h
        simp only [Except.ok.injEq, Prod.mk.injEq] at h
        obtain ⟨hv, hr⟩ := h
        subst hv; subst hr
        have := readFixed_len hrf
        exact ⟨by simp [countsOk], by simp [vdepth], by simp; omega⟩
      rw [if_neg c7] at h
      by_cases c8 : t = tagDouble
      case pos =>
        rw [if_pos c8] at h
        obtain ⟨⟨n, r⟩, hrf, h⟩ := bindOkElim h
        simp only [Except.ok.injEq, Prod.mk.injEq] at h
        obtain ⟨hv, hr⟩ := h
        subst hv; subst hr
        have := readFixed_len hrf
        exact ⟨by simp [countsOk], by simp [vdepth], by simp; omega⟩
      rw [if_neg c8] at h
      by_cases c9 : t = tagString
      case pos =>
        rw [if_pos c9] at h
        obtain ⟨⟨len, r⟩, hrf, h⟩ := bindOkElim h
        obtain ⟨⟨c, r'⟩, hrc, h⟩ := bindOkElim h
        simp only [Except.ok.injEq, Prod.mk.injEq] at h
        obtain ⟨hv, hr⟩ := h
        subst hv; subst hr
        have h1 := readFixed_len hrf
        have h2 := readChunk_len hrc
        have h3 := le_trans h2 h1
        exact ⟨by simp [countsOk], by simp [vdepth], by simp; omega⟩
      rw [if_neg c9] at h
      by_cases c10 : t = tagByteArray
      case pos =>
        rw [if_pos c10] at h
        obtain ⟨⟨len, r⟩, hrf, h⟩ := bindOkElim h
        obtain ⟨⟨c, r'⟩, hrc, h⟩ := bindOkElim h
        simp only [Except.ok.injEq, Prod.mk.injEq] at h
        obtain ⟨hv, hr⟩ := h
        subst hv; subst hr
        have h1 := readFixed_len hrf
        have h2 := readChunk_len hrc
        have h3 := le_trans h2 h1
        exact ⟨by simp [countsOk], by simp [vdepth], by simp; omega⟩
      rw [if_neg c10] at h
      by_cases c11 : t = tagArray
      case pos =>
        rw [if_pos c11] at h
        match bs', h with
        | et :: r0, h =>
          simp only at h
          by_cases e1 : et = tagInt
          case pos =>
            rw [if_pos e1] at h
            obtain ⟨⟨n, r⟩, hrf, h⟩ := bindOkElim h
            by_cases hc : maxCount < n
            · rw [if_pos hc] at h
              exact absurd h (by simp)
            · rw [if_neg hc] at h
              obtain ⟨⟨xs, r'⟩, hri, h⟩ := bindOkElim h
              simp only [Except.ok.injEq, Prod.mk.injEq] at h
              obtain ⟨hv, hr⟩ := h
              subst hv; subst hr
              have hs := readInts_sound n r xs r' hri
              have hf := readFixed_len hrf
              refine ⟨?_, by simp [vdepth], by simp; omega⟩
              rw [countsOk]
              simp only [decide_eq_true_eq]
              omega
          rw [if_neg e1] at h
          by_cases e2 : et = tagString
          case pos =>
            rw [if_pos e2] at h
            obtain ⟨⟨n, r⟩, hrf, h⟩ := bindOkElim h
            by_cases hc : maxCount < n
            · rw [if_pos hc] at h
              exact absurd h (by simp)
            · rw [if_neg hc] at h
              obtain ⟨⟨xs, r'⟩, hrs, h⟩ := bindOkElim h
              simp only [Except.ok.injEq, Prod.mk.injEq] at h
              obtain ⟨hv, hr⟩ := h
              subst hv; subst hr
              have hs := readStrs_sound n r xs r' hrs
              have hf := readFixed_len hrf
              refine ⟨?_, by simp [vdepth], by simp; omega⟩
              rw [countsOk]
              simp only [decide_eq_true_eq]
              omega
          rw [if_neg e2] at h
          by_cases e3 : et = tagArray
          case pos =>
            rw [if_pos e3] at h
            cases fuel with
            | zero => exact absurd h (by simp)
            | succ g =>
              obtain ⟨⟨n, r⟩, hrf, h⟩ := bindOkElim h
              by_cases hc : maxCount < n
              · rw [if_pos hc] at h
                exact absurd h (by simp)
              · rw [if_neg hc] at h
                obtain ⟨⟨as, r'⟩, hras, h⟩ := bindOkElim h
                simp only [Except.ok.injEq, Prod.mk.injEq] at h
                obtain ⟨hv, hr⟩ := h
                subst hv; subst hr
                have hs := readHomArrsSoundOf g (readHomArrSound g) n r as r' hras
                have hf := readFixed_len hrf
                refine ⟨?_, ?_, by simp; omega⟩
                · rw [countsOk, Bool.and_eq_true]
                  refine ⟨by simp only [decide_eq_true_eq]; omega,
                    countsOkHomList_of (fun b hb => (hs.2.1 b hb).1)⟩
                · rw [vdepth]
                  have := hdepthList_le (fun b hb => (hs.2.1 b hb).2)
                  omega
          rw [if_neg e3] at h
          exact absurd h (by simp)
      rw [if_neg c11] at h
      by_cases c12 : t = tagObjectArray
      case pos =>
        rw [if_pos c12] at h
        cases fuel with
        | zero => exact absurd h (by simp)
        | succ g =>
          obtain ⟨⟨n, r⟩, hrf, h⟩ := bindOkElim h
          by_cases hc : maxCount < n
          · rw [if_pos hc] at h
            exact absurd h (by simp)
          · rw [if_neg hc] at h
            obtain ⟨⟨vs, r'⟩, hdvs, h⟩ := bindOkElim h
            simp only [Except.ok.injEq, Prod.mk.injEq] at h
            obtain ⟨hv, hr⟩ := h
            subst hv; subst hr
            have hs := decodeValuesSoundOf g (IH g (by omega)) n r vs r' hdvs
            have hf := readFixed_len hrf
            refine ⟨?_, ?_, by simp; omega⟩
            · rw [countsOk, Bool.and_eq_true]
              refine ⟨by simp only [decide_eq_true_eq]; omega,
                countsOkList_of (fun w hw => (hs.2.1 w hw).1)⟩
            · rw [vdepth]
              have := vdepthList_le (fun w hw => (hs.2.1 w hw).2)
              omega
      rw [if_neg c12] at h
      by_cases c13 : t = tagMap
      case pos =>
        rw [if_pos c13] at h
        cases fuel with
        | zero => exact absurd h (by simp)
        | succ g =>
          obtain ⟨⟨n, r⟩, hrf, h⟩ := bindOkElim h
          by_cases hc : maxCount < n
          · rw [if_pos hc] at h
            exact absurd h (by simp)
          · rw [if_neg hc] at h
            obtain ⟨⟨ps, r'⟩, hdps, h⟩ := bindOkElim h
            simp only [Except.ok.injEq, Prod.mk.injEq] at h
            obtain ⟨hv, hr⟩ := h
            subst hv; subst hr
            have hs := decodePairsSoundOf g (IH g (by omega)) n r ps r' hdps
            have hf := readFixed_len hrf
            refine ⟨?_, ?_, by simp; omega⟩
            · rw [countsOk, Bool.and_eq_true]
              refine ⟨by simp only [decide_eq_true_eq]; omega,
                countsOkPairs_of (fun q hq => ⟨(hs.2.1 q hq).1.1, (hs.2.1 q hq).2.1⟩)⟩
            · rw [vdepth]
              have := vdepthPairs_le
                (fun q hq => ⟨(hs.2.1 q hq).1.2, (hs.2.1 q hq).2.2⟩)
              omega
      rw [if_neg c13] at h
      by_cases c14 : t = tagVector3
      case pos =>
        rw [if_pos c14] at h
        obtain ⟨⟨x, r⟩, hx, h⟩ := bindOkElim h
        obtain ⟨⟨y, r'⟩, hy, h⟩ := bindOkElim h
        obtain ⟨⟨z, r''⟩, hz, h⟩ := bindOkElim h
        simp only [Except.ok.injEq, Prod.mk.injEq] at h
        obtain ⟨hv, hr⟩ := h
        subst hv; subst hr
        have h1 := readFixed_len hx
        have h2 := readFixed_len hy
        have h3 := readFixed_len hz
        have h4 : r''.length ≤ bs'.length := le_trans h3 (le_trans h2 h1)
        exact ⟨by simp [countsOk], by simp [vdepth], by simp; omega⟩
      rw [if_neg c14] at h
      exact absurd h (by simp)

/-- IEEE-754 binary64 bit pattern of a quiet NaN (0x7FF8000000000000). -/
def nanDoubleBits : Nat := 9221120237041090560

/-- IEEE-754 binary64 bit pattern of positive infinity (0x7FF0000000000000). -/
def infDoubleBits : Nat := 9218868437227405312

/-- IEEE-754 binary64 bit pattern of negative infinity (0xFFF0000000000000). -/
def negInfDoubleBits : Nat := 18442240474082181120

/-- IEEE-754 binary32 bit pattern of a quiet NaN (0x7FC00000). -/
def nanFloatBits : Nat := 2143289344

/-- A sample nested value carrying NaN and both infinities as raw
floating-point bit patterns. -/
def sampleValue : Value :=
  .map [(.str [110, 97, 110],
         .objectArray [.double nanDoubleBits, .double infDoubleBits,
                       .double negInfDoubleBits, .float nanFloatBits, .boolean true]),
        (.byte 7, .intArray [0, 4294967295]),
        (.byte 8, .nestedArray [.ints [1, 2], .nested [.strs [[104, 105]]], .strs []])]

/-- C1: for every value the encoder can produce onto the wire (well
formed for the format and within the codec's own depth bound), decoding
the encoding yields exactly the value — bit-exact for floating-point
payloads, NaN and the infinities included, since float/double payloads
are carried as raw bit patterns — and consumes exactly the bytes encode
produced. -/
theorem C1_encode_decode_roundtrip (v : Value) (hwf : wf v = true)
    (hd : vdepth v ≤ maxDepth) :
    decode (encode v) = .ok (v, (encode v).length) := by
  unfold decode
  have h := roundtripAux (sizeOf v) v le_rfl hwf maxDepth hd []
  rw [List.append_nil] at h
  rw [h]
  simp

/-- C1 witness: the round trip at a concrete nested value holding NaN,
+Infinity and -Infinity double bit patterns and a NaN float bit pattern. -/
theorem C1_witness :
    decode (encode sampleValue) = .ok (sampleValue, (encode sampleValue).length) :=
  C1_encode_decode_roundtrip sampleValue
    (by
      simp [sampleValue, wf, wfList, wfPairs, wfHomArr, wfHomArrList, maxCount,
        nanDoubleBits, infDoubleBits, negInfDoubleBits, nanFloatBits])
    (by
      simp [sampleValue, vdepth, vdepthList, vdepthPairs, hdepth, hdepthList, maxDepth])

/-- A 10-byte buffer whose Integer-array header declares 5 000 elements
(`19 * 256 + 136 = 5000`) — within the count bound, but needing 20 000
payload bytes the buffer cannot supply. -/
def underfedArrayHeader : List Nat :=
  [tagArray, tagInt, 19, 136, 0, 0, 0, 0, 0, 0]

theorem underfedArrayHeader_truncated :
    decode underfedArrayHeader = .error .truncated := by
  unfold decode
  rw [show underfedArrayHeader = tagArray :: tagInt :: [19, 136, 0, 0, 0, 0, 0, 0]
      from rfl, decodeValue_intArray]
  norm_num [readFixed, rdN, maxCount]
  simp only [okBind]
  norm_num
  rw [readInts.eq_def]
  norm_num [readFixed, rdN]
  simp only [okBind]
  rw [readInts.eq_def]
  norm_num [readFixed]
  simp [errBind]

/-- C2: decoding fails closed on every input byte buffer.  Universally:
any buffer a decode succeeds on yields a value whose every declared
element/pair count is within `maxCount`, whose container nesting depth
is within `maxDepth`, and whose consumed byte count is within the
buffer — so a buffer whose content exceeds any of those bounds gets a
decode error, never a too-deep or too-large value and never an
out-of-bounds read.  Every nesting level past the bound errors
(`deepMapBytes`), and in particular: a map nested 1000 levels deep
yields `depthExceeded` (no unbounded recursion — the fuel stops at
`maxDepth`); a 10-byte buffer whose array header declares 65 000
elements yields `countExceeded`; a 10-byte buffer whose array header
declares 5 000 elements — within the count bound but beyond what the
remaining buffer can supply — yields `truncated`.  The success case is
not vacuous: a well-formed buffer decodes. -/
theorem C2_decode_limits :
    (∀ (bs : List Nat) (v : Value) (n : Nat), decode bs = .ok (v, n) →
      countsOk v = true ∧ vdepth v ≤ maxDepth ∧ n ≤ bs.length) ∧
    (∀ (k : Nat), maxDepth ≤ k → decode (deepMapBytes (k + 1)) = .error .depthExceeded) ∧
    decode (deepMapBytes 1000) = .error .depthExceeded ∧
    decode oversizedArrayHeader = .error .countExceeded ∧
    decode underfedArrayHeader = .error .truncated ∧
    oversizedArrayHeader.length = 10 ∧ rdN [253, 232] = 65000 ∧
    underfedArrayHeader.length = 10 ∧ rdN [19, 136] = 5000 ∧
    decode [tagNull] = .ok (.null, 1) := by
  have hdeep : ∀ (k : Nat), maxDepth ≤ k →
      decode (deepMapBytes (k + 1)) = .error .depthExceeded := by
    intro k hk
    unfold decode
    rw [deepMapBytes_depthExceeded maxDepth k hk]
  refine ⟨?_, hdeep, ?_, oversizedArrayHeader_countExceeded,
    underfedArrayHeader_truncated, by rfl, by norm_num [rdN], by rfl,
    by norm_num [rdN], ?_⟩
  · intro bs v n h
    unfold decode at h
    cases hdv : decodeValue maxDepth bs with
    | error e =>
      rw [hdv] at h
      exact absurd h (by simp)
    | ok p =>
      obtain ⟨w, rest⟩ := p
      rw [hdv] at h
      simp only [Except.ok.injEq, Prod.mk.injEq] at h
      obtain ⟨hv, hn⟩ := h
      subst hv; subst hn
      have hs := decodeValueSound maxDepth bs w rest hdv
      exact ⟨hs.1, hs.2.1, by omega⟩
  · have h := hdeep 999 (by norm_num [maxDepth])
    norm_num at h
    exact h
  · unfold decode
    rw [decodeValue_null]
    simp

/-! ## The PhotonBot session state and the game-socket message handler

Embedded from `src/unnamed/part_001` (class `PhotonBot`): the constructor
state (lines 17-47), the `gameSocket.onmessage` handler (lines 561-618),
`sendLeaveRoomPacket`/`leaveRoom` (lines 465-475) together with the
`POST /api/bots/:botId/leave-room` handler of `src/unnamed/part_000`
(lines 325-358), and `filterRoomsWithIdOnly` (lines 266-268). -/

/-- One roster entry, built in the JoinGame branch of the handler from an
occupant's nested property map: `{ name, actorNr, rank, kd, team, kills,
platform }` (part_001 lines 576-584).  `kd` is carried as the raw
floating-point bit pattern. -/
structure Occupant where
  actorNr : Nat
  name : String
  rank : Nat
  kd : Nat
  team : Nat
  kills : Nat
  platform : String
deriving DecidableEq, Repr

/-- The mutable `PhotonBot` instance state (constructor, part_001 lines
17-47), plus the two facts about the game socket the claims need: whether
`this.gameSocket` is set and whether that channel is open. -/
structure BotState where
  players : List Occupant
  lastActorNr : Nat
  showJoinMessageInChat : Bool
  authSent : Bool
  authToken : String
  isInGame : Bool
  isInRoom : Bool
  alreadyJoined : Bool
  gameRoomName : String
  serverAddress : String
  gameSocketExists : Bool
  gameSocketOpen : Bool
deriving DecidableEq, Repr

/-- A freshly constructed `PhotonBot` (part_001 lines 17-47). -/
def freshBot : BotState :=
  { players := []
    lastActorNr := 1
    showJoinMessageInChat := true
    authSent := false
    authToken := ""
    isInGame := false
    isInRoom := false
    alreadyJoined := false
    gameRoomName := ""
    serverAddress := ""
    gameSocketExists := false
    gameSocketOpen := false }

/-- The observable sends the handlers perform. -/
inductive Effect where
  | gameAuth (token : String)
  | joinRoomWithProps (room : String)
  | idkPacket
  | fetchAuthCode
  | joinNotify
  | authTokenEvent (code : String)
  | playerBody
  | leavePacket
deriving DecidableEq, Repr

/-- A decoded inbound game-server packet as the handler inspects it:
its code, whether parameter 249 is present (and the occupant records it
carries in a join-game response), and the actor number of parameter 254
when present. -/
structure GamePacket where
  code : Nat
  param249 : Option (List Occupant)
  param254 : Option Nat
deriving DecidableEq, Repr

/-- `OperationCode.Authenticate` — the numeric constants live in the
absent `protocol_reader/constants` module; the standard Photon values are
used, and only their distinctness matters to the claims. -/
def opAuthenticate : Nat := 230

/-- `OperationCode.JoinGame` (matches the literal 226 that
`sendJoinRoomWithProperties` uses for the same request). -/
def opJoinGame : Nat := 226

/-- `PacketType.InitResponse`. -/
def initResponseCode : Nat := 1

/-- The `gameSocket.onmessage` handler (part_001 lines 561-618).  The
awaited external `getAuthCode()` result is the `authCode` input; the
fetch itself is recorded as an effect.  The four `if` blocks of the
source match distinct codes, so they are rendered as one chain. -/
def gameSocketOnMessage (s : BotState) (p : GamePacket) (authCode : String) :
    BotState × List Effect :=
  if p.code == opJoinGame && p.param249.isSome then
    if s.isInGame then (s, [])
    else ({ s with isInGame := true, players := s.players ++ p.param249.getD [] }, [])
  else if p.code == initResponseCode then
    ({ s with authSent := true }, [.gameAuth s.authToken])
  else if p.code == opAuthenticate then
    (s, [.joinRoomWithProps s.gameRoomName, .idkPacket])
  else if p.code == 255 && p.param249.isSome && p.param254.isSome then
    let s1 := { s with lastActorNr := p.param254.getD 0 }
    let effs : List Effect := [.fetchAuthCode, .joinNotify, .authTokenEvent authCode]
    if s1.alreadyJoined then (s1, effs)
    else
      ({ s1 with alreadyJoined := true },
        effs ++ if s1.showJoinMessageInChat then [.playerBody] else [])
  else (s, [])

/-- The "assigned actor number" trigger: code 255 with parameters 249 and
254 both present (part_001 line 601). -/
def trigger255 (actor : Nat) : GamePacket :=
  { code := 255, param249 := some [], param254 := some actor }

/-- The `POST /api/bots/:botId/leave-room` handler (part_000 lines
325-358): rejected when the bot is in no room; otherwise `bot.leaveRoom()`
sends the leave packet when a game socket exists (part_001 lines 465-475)
and the handler resets the six state fields.  No socket is closed here.
Returns the new state, the sends, and whether the request succeeded. -/
def leaveRoomHandler (s : BotState) : BotState × List Effect × Bool :=
  if !s.isInRoom && !s.isInGame then (s, [], false)
  else
    let s' : BotState :=
      { s with isInGame := false, isInRoom := false, alreadyJoined := false,
               gameRoomName := "", serverAddress := "", players := [] }
    (s', (if s.gameSocketExists then [Effect.leavePacket] else []), true)

/-- One character of the room-id pattern: the closing parenthesis
position. -/
def matchClose : List Char → Bool
  | ')' :: _ => true
  | _ => false

/-- One candidate start position of the JS regex match: a literal `(#`,
then (with the regex engine's bounded backtracking over the counted
repetition) some `k` of 4, 5 or 6 digits, then a literal `)`. -/
def matchRoomIdAt : List Char → Bool
  | '(' :: '#' :: rest =>
      [4, 5, 6].any fun k =>
        (rest.take k).length == k && (rest.take k).all Char.isDigit
          && matchClose (rest.drop k)
  | _ => false

/-- The unanchored regex test: a match may start at any position. -/
def hasRoomId : List Char → Bool
  | [] => false
  | c :: cs => matchRoomIdAt (c :: cs) || hasRoomId cs

/-- `filterRoomsWithIdOnly` (part_001 lines 266-268): keeps the keys on
which the regex test `/\(#\d{4,6}\)/.test(key)` passes. -/
def filterRoomsWithIdOnly (roomKeys : List String) : List String :=
  roomKeys.filter (fun key => hasRoomId key.toList)

/-- C3 counterexample: from a fresh session, deliver the assigned-actor
trigger once (reaching the in-room state) and then a second time.  The
claim says the two deliveries emit exactly one join-notify; the code
emits two, because `sendJoinNotify()` runs before the `alreadyJoined`
guard.  Only the presence/spawn (player-body) send is emitted once. -/
theorem C3_counterexample :
    ((gameSocketOnMessage freshBot (trigger255 5) "ac").1.alreadyJoined = true) ∧
    (((gameSocketOnMessage freshBot (trigger255 5) "ac").2 ++
      (gameSocketOnMessage (gameSocketOnMessage freshBot (trigger255 5) "ac").1
        (trigger255 5) "ac").2).count .joinNotify = 2) ∧
    (((gameSocketOnMessage freshBot (trigger255 5) "ac").2 ++
      (gameSocketOnMessage (gameSocketOnMessage freshBot (trigger255 5) "ac").1
        (trigger255 5) "ac").2).count .playerBody = 1) := by
  refine ⟨rfl, rfl, rfl⟩

/-- C3 (amended): re-delivering the assigned-actor trigger while already
joined is not a no-op — the handler re-records the fetched auth code's
effects, re-sends the join-notify and auth-code events and rewrites
`lastActorNr`; only the presence/spawn (player-body) send is suppressed
by the `alreadyJoined` guard. -/
theorem C3_duplicate_trigger (s : BotState) (actor : Nat) (ac : String)
    (hj : s.alreadyJoined = true) :
    gameSocketOnMessage s (trigger255 actor) ac =
      ({ s with lastActorNr := actor },
       [.fetchAuthCode, .joinNotify, .authTokenEvent ac]) := by
  unfold gameSocketOnMessage trigger255
  simp [opJoinGame, initResponseCode, opAuthenticate, hj]

/-- C3 witness: the duplicate delivery at a concrete joined state. -/
theorem C3_witness :
    gameSocketOnMessage { freshBot with alreadyJoined := true } (trigger255 9) "x" =
      ({ freshBot with alreadyJoined := true, lastActorNr := 9 },
       [.fetchAuthCode, .joinNotify, .authTokenEvent "x"]) :=
  C3_duplicate_trigger { freshBot with alreadyJoined := true } 9 "x" rfl

/-- C5 counterexample: a join-game response carrying an occupant listing,
delivered to a fresh session that has never seen an authenticate
response, immediately advances the session to in-game — the phase
advances past what the prior (empty) trigger history justifies. -/
theorem C5_counterexample :
    (gameSocketOnMessage freshBot
      { code := opJoinGame,
        param249 := some [{ actorNr := 2, name := "P", rank := 42, kd := 0,
                            team := 0, kills := 0, platform := "U" }],
        param254 := none } "").1.isInGame = true ∧
    freshBot.isInGame = false ∧ freshBot.authSent = false ∧ freshBot.authToken = "" := by
  refine ⟨rfl, rfl, rfl, rfl⟩

/-- C5 (amended): the handler dispatches on the packet code alone, with
no phase guard: a packet matching none of the four branches is silently
ignored with no state change (it is not logged as a protocol-sequence
error), while a join-game response with an occupant listing sets the
in-game flag even when no authenticate response ever arrived. -/
theorem C5_no_phase_guard :
    (∀ (s : BotState) (p : GamePacket) (ac : String),
        (p.code == opJoinGame && p.param249.isSome) = false →
        (p.code == initResponseCode) = false →
        (p.code == opAuthenticate) = false →
        (p.code == 255 && p.param249.isSome && p.param254.isSome) = false →
        gameSocketOnMessage s p ac = (s, [])) ∧
    (∀ (s : BotState) (occs : List Occupant) (ac : String),
        s.isInGame = false →
        gameSocketOnMessage s
            { code := opJoinGame, param249 := some occs, param254 := none } ac =
          ({ s with isInGame := true, players := s.players ++ occs }, [])) := by
  constructor
  · intro s p ac h1 h2 h3 h4
    unfold gameSocketOnMessage
    simp only [h1, h2, h3, h4]
    rfl
  · intro s occs ac hg
    unfold gameSocketOnMessage
    simp [opJoinGame, initResponseCode, opAuthenticate, hg]

/-- C5 witness: both parts at concrete inputs — an unknown code 7 packet
is ignored on a fresh session, and the early join-game response flips the
fresh session to in-game. -/
theorem C5_witness :
    gameSocketOnMessage freshBot { code := 7, param249 := none, param254 := none } "" =
      (freshBot, []) ∧
    gameSocketOnMessage freshBot
        { code := opJoinGame, param249 := some [], param254 := none } "" =
      ({ freshBot with isInGame := true, players := freshBot.players ++ [] }, []) :=
  ⟨C5_no_phase_guard.1 freshBot { code := 7, param249 := none, param254 := none } ""
      rfl rfl rfl rfl,
   C5_no_phase_guard.2 freshBot [] "" rfl⟩

/-- A concrete in-room session used by the C8 statements. -/
def inRoomBot : BotState :=
  { freshBot with
    isInRoom := true
    isInGame := true
    alreadyJoined := true
    gameRoomName := "Arena (#12345)"
    serverAddress := "wss://game"
    gameSocketExists := true
    gameSocketOpen := true
    players := [{ actorNr := 2, name := "P", rank := 42, kd := 0, team := 0,
                  kills := 0, platform := "U" }] }

/-- C8 counterexample: an explicit leave on an in-room session sends the
leave request and clears room and roster, but the claim's "closes that
channel" is false — the game channel is still open afterwards (neither
`leaveRoom` nor the leave-room route calls `gameSocket.close()`; only bot
deletion does). -/
theorem C8_counterexample :
    (leaveRoomHandler inRoomBot).1.gameSocketOpen = true ∧
    (leaveRoomHandler inRoomBot).1.gameRoomName = "" ∧
    (leaveRoomHandler inRoomBot).1.players = [] ∧
    (leaveRoomHandler inRoomBot).2.1 = [Effect.leavePacket] := by
  refine ⟨rfl, rfl, rfl, rfl⟩

/-- C8 (amended): for every in-room session with a game socket, the
explicit leave sends the leave request, clears the room name and the
roster, and resets the state flags to idle — but it leaves the game
channel in whatever open state it had; the channel is not closed. -/
theorem C8_leave_behavior (s : BotState) (h1 : s.isInRoom = true)
    (h2 : s.gameSocketExists = true) :
    leaveRoomHandler s =
      ({ s with
         isInGame := false
         isInRoom := false
         alreadyJoined := false
         gameRoomName := ""
         serverAddress := ""
         players := [] },
       [Effect.leavePacket], true) ∧
    (leaveRoomHandler s).1.gameSocketOpen = s.gameSocketOpen := by
  unfold leaveRoomHandler
  simp [h1, h2]

/-- C8 witness: the leave at the concrete in-room session. -/
theorem C8_witness :
    leaveRoomHandler inRoomBot =
      ({ inRoomBot with
         isInGame := false
         isInRoom := false
         alreadyJoined := false
         gameRoomName := ""
         serverAddress := ""
         players := [] },
       [Effect.leavePacket], true) ∧
    (leaveRoomHandler inRoomBot).1.gameSocketOpen = inRoomBot.gameSocketOpen :=
  C8_leave_behavior inRoomBot rfl rfl

/-- C9: the room-id filter keeps exactly the keys on which the room-id
pattern (a parenthesized `#` followed by four to six digits) matches
somewhere; from `["Arena (#12345)", "Lounge"]` only `"Arena (#12345)"`
passes. -/
theorem C9_filterRooms :
    filterRoomsWithIdOnly ["Arena (#12345)", "Lounge"] = ["Arena (#12345)"] ∧
    ∀ (roomKeys : List String) (k : String),
      k ∈ filterRoomsWithIdOnly roomKeys ↔ k ∈ roomKeys ∧ hasRoomId k.toList = true := by
  constructor
  · rfl
  · intro roomKeys k
    unfold filterRoomsWithIdOnly
    exact List.mem_filter

/-! ## PhotonClient — OpRaiseEvent / SendOperation

Embedded from `src/bot/PhotonClient.js`: the `EventCaching` /
`ReceiverGroup` constant tables (lines 12-31), `RaiseEventOptions` /
`SendOptions` (lines 33-53), `convertToPhotonType` (lines 140-190),
`SendOperation` (lines 199-212) and `OpRaiseEvent` (lines 69-133).
The parameter-code constants live in the absent
`protocol_reader/constants` module; the standard Photon values are used
and only their distinctness matters. -/

def ecDoNotCache : Nat := 0
def ecRemoveFromRoomCache : Nat := 6
def ecRemoveFromRoomCacheForActorsLeft : Nat := 7
def ecSliceIncreaseIndex : Nat := 10
def ecSliceSetIndex : Nat := 11
def ecSlicePurgeIndex : Nat := 12
def ecSlicePurgeUpToIndex : Nat := 13
def rgOthers : Nat := 0

def opRaiseEvent : Nat := 253

def pcCode : Nat := 244
def pcData : Nat := 245
def pcCache : Nat := 247
def pcActorList : Nat := 252
def pcGroup : Nat := 240
def pcReceiverGroup : Nat := 246
def pcEventForward : Nat := 234

/-- `RaiseEventOptions` (PhotonClient.js lines 33-45); `Flags` is
flattened into its two members. -/
structure RaiseEventOptions where
  CachingOption : Nat := ecDoNotCache
  TargetActors : Option (List Nat) := none
  InterestGroup : Nat := 0
  Receivers : Nat := rgOthers
  HttpForward : Bool := false
  WebhookFlags : Nat := 0
  CacheSliceIndex : Nat := 0
deriving Repr

/-- `SendOptions` (PhotonClient.js lines 47-53). -/
structure SendOptions where
  Reliability : Bool := true
  Channel : Nat := 0
  Encrypt : Bool := false
deriving DecidableEq, Repr

/-- The UTF-8 bytes of a string, as the wire carries them. -/
def strBytes (s : String) : List Nat :=
  s.toUTF8.toList.map (fun b => b.toNat)

/-- A JavaScript value as `convertToPhotonType` inspects it at runtime:
null/undefined, booleans, numbers (split by `Number.isInteger`, the
non-integer case carrying its float bit pattern), strings, arrays and
plain objects. -/
inductive JsVal where
  | null : JsVal
  | bool (b : Bool) : JsVal
  | intNum (n : Nat) : JsVal
  | floatNum (bits : Nat) : JsVal
  | str (s : String) : JsVal
  | arr (xs : List JsVal) : JsVal
  | obj (fields : List (String × JsVal)) : JsVal

/-- `value.every(item => typeof item === 'number' && Number.isInteger(item))`. -/
def allIntNums : List JsVal → Bool
  | [] => true
  | .intNum _ :: xs => allIntNums xs
  | _ :: _ => false

/-- The integer payload of an element of an all-integer array. -/
def jsIntOf : JsVal → Nat
  | .intNum n => n
  | _ => 0

/-- The string payload the builder is handed for a `stringArray` element
(the absent builder's behavior on a non-string element of a mixed array
whose first element is a string is unspecified; empty stands in). -/
def jsStrBytesOf : JsVal → List Nat
  | .str s => strBytes s
  | _ => []

mutual

/-- `convertToPhotonType` (PhotonClient.js lines 140-190).  Note the
source's order: the all-integers check runs first (so `[]` becomes an
integer array and the `length === 0` branch is unreachable), then the
first element's type decides string-array versus object-array. -/
def convertToPhotonType : JsVal → Value
  | .null => .null
  | .str s => .str (strBytes s)
  | .bool b => .boolean b
  | .intNum n => .int n
  | .floatNum bits => .float bits
  | .arr xs =>
      if allIntNums xs then .intArray (xs.map jsIntOf)
      else if xs.length == 0 then .objectArray []
      else
        match xs with
        | .str _ :: _ => .strArray (xs.map jsStrBytesOf)
        | _ => .objectArray (convertJsList xs)
  | .obj fields => .map (convertJsFields fields)

def convertJsList : List JsVal → List Value
  | [] => []
  | v :: vs => convertToPhotonType v :: convertJsList vs

def convertJsFields : List (String × JsVal) → List (Value × Value)
  | [] => []
  | (k, v) :: fs => (.str (strBytes k), convertToPhotonType v) :: convertJsFields fs

end

/-- One outbound request packet: operation code plus parameter map. -/
structure Packet where
  code : Nat
  params : List (Nat × Value)

/-- `Map.set` semantics on the insertion-ordered parameter map: replace
in place when the key exists, append otherwise. -/
def mapSet (m : List (Nat × Value)) (k : Nat) (v : Value) : List (Nat × Value) :=
  if m.any (fun kv => kv.1 == k) then
    m.map (fun kv => if kv.1 == k then (k, v) else kv)
  else m ++ [(k, v)]

/-- The `PhotonClient` instance: its reused `opParameters` map and the
packets pushed to the socket so far. -/
structure ClientState where
  opParameters : List (Nat × Value)
  sentPackets : List Packet

/-- `SendOperation` (PhotonClient.js lines 199-212): builds the request
packet from the parameter map and pushes it to the socket.  `sendOk` is
whether the underlying socket send succeeded — the code never inspects
it, and the source itself notes it returns true regardless ("in real
implementation, would check if send was successful"). -/
def SendOperation (s : ClientState) (operationCode : Nat)
    (parameters : List (Nat × Value)) (so : SendOptions) (sendOk : Bool) :
    ClientState × Bool :=
  ({ s with sentPackets :=
      s.sentPackets ++ [{ code := operationCode, params := parameters }] },
   true)

/-- `OpRaiseEvent` (PhotonClient.js lines 69-133): clears and rebuilds
`opParameters` according to the caching options, then sends the
RaiseEvent operation.  Every control path returns the result of a
`SendOperation` call. -/
def OpRaiseEvent (s : ClientState) (eventCode : Nat)
    (customEventContent : Option JsVal) (reo : Option RaiseEventOptions)
    (so : SendOptions) (sendOk : Bool) : ClientState × Bool :=
  let ps0 : List (Nat × Value) := []
  match reo with
  | some o =>
    let ps1 := if o.CachingOption != ecDoNotCache then
        mapSet ps0 pcCache (.byte o.CachingOption)
      else ps0
    if o.CachingOption == ecSliceSetIndex || o.CachingOption == ecSlicePurgeIndex
        || o.CachingOption == ecSlicePurgeUpToIndex then
      SendOperation { s with opParameters := ps1 } opRaiseEvent ps1 so sendOk
    else if o.CachingOption == ecSliceIncreaseIndex
        || o.CachingOption == ecRemoveFromRoomCacheForActorsLeft then
      SendOperation { s with opParameters := ps1 } opRaiseEvent ps1 so sendOk
    else
      let ps2 :=
        if o.CachingOption == ecRemoveFromRoomCache then
          match o.TargetActors with
          | some ts => mapSet ps1 pcActorList (.intArray ts)
          | none => ps1
        else
          let a :=
            match o.TargetActors with
            | some ts => mapSet ps1 pcActorList (.intArray ts)
            | none =>
              if o.InterestGroup != 0 then
                mapSet ps1 pcGroup (.byte o.InterestGroup)
              else if o.Receivers != rgOthers then
                mapSet ps1 pcReceiverGroup (.byte o.Receivers)
              else ps1
          if o.HttpForward then mapSet a pcEventForward (.byte o.WebhookFlags) else a
      let ps3 := mapSet ps2 pcCode (.byte eventCode)
      let ps4 :=
        match customEventContent with
        | some c => mapSet ps3 pcData (convertToPhotonType c)
        | none => ps3
      SendOperation { s with opParameters := ps4 } opRaiseEvent ps4 so sendOk
  | none =>
    let ps3 := mapSet ps0 pcCode (.byte eventCode)
    let ps4 :=
      match customEventContent with
      | some c => mapSet ps3 pcData (convertToPhotonType c)
      | none => ps3
    SendOperation { s with opParameters := ps4 } opRaiseEvent ps4 so sendOk

/-- C10: `SendOperation` and `OpRaiseEvent` return `true` on every
control path, whatever the event code, content, raise-event options,
send options and actual socket-send outcome (`sendOk`) are: the boolean
result never reflects whether the underlying send succeeded, so a caller
cannot detect a send failure from the return value. -/
theorem C10_send_always_true :
    (∀ (s : ClientState) (opCode : Nat) (params : List (Nat × Value))
        (so : SendOptions) (sendOk : Bool),
        (SendOperation s opCode params so sendOk).2 = true) ∧
    (∀ (s : ClientState) (eventCode : Nat) (content : Option JsVal)
        (reo : Option RaiseEventOptions) (so : SendOptions) (sendOk : Bool),
        (OpRaiseEvent s eventCode content reo so sendOk).2 = true) := by
  constructor
  · intro s opCode params so sendOk
    rfl
  · intro s eventCode content reo so sendOk
    cases reo with
    | none => rfl
    | some o =>
      simp only [OpRaiseEvent, SendOperation]
      split
      · rfl
      · split <;> rfl

/-! ## Channel and timer lifecycle

Embedded from `src/unnamed/part_001`: `joinRoom` (lines 646-678, the
lobby connect and the 30 s join timeout), `setupLobbySocket` (lines
480-538, the `AppStats` server-address branch that opens the game
channel), `setupGameSocket.onopen` (lines 548-559, which closes the lobby
socket first and then starts `pingLoop`), `gameSocket.onclose` (lines
544-546, which only logs), and `pingLoop` (lines 210-222, two
`setInterval` timers whose handles are never stored and never cleared —
no `clearInterval` exists anywhere in the repository).  Each discrete
event of the single-threaded runtime is one `Ev`; a guard that fails
makes the event a no-op, matching a callback that cannot fire in that
state. -/

inductive ChState where
  | initial : ChState
  | connecting : ChState
  | opened : ChState
  | closed : ChState
deriving DecidableEq, Repr

inductive JoinOutcome where
  | timeoutErr : JoinOutcome
deriving DecidableEq, Repr

inductive ConnEffect where
  | lobbyPing : ConnEffect
  | gamePing : ConnEffect
  | pingProbe : ConnEffect
  | craftedStatus : ConnEffect
deriving DecidableEq, Repr

structure ConnState where
  lobby : ChState
  game : ChState
  gameWasOpen : Bool
  pingTimerActive : Bool
  statusTimerActive : Bool
  timeoutArmed : Bool
  joinOutcome : Option JoinOutcome
  sent : List ConnEffect
deriving DecidableEq, Repr

/-- Before `joinRoom` is called: no sockets, no timers. -/
def connInit : ConnState :=
  { lobby := .initial
    game := .initial
    gameWasOpen := false
    pingTimerActive := false
    statusTimerActive := false
    timeoutArmed := false
    joinOutcome := none
    sent := [] }

inductive Ev where
  | joinCalled : Ev
  | lobbyOpened : Ev
  | serverAddressMsg : Ev
  | gameOpened : Ev
  | gameClosed : Ev
  | pingTick : Ev
  | statusTick : Ev
  | timeoutFired : Ev
deriving DecidableEq, Repr

/-- `setTimeout(..., 30000)` in `joinRoom` (part_001 line 665). -/
def joinTimeoutMs : Nat := 30000

/-- The liveness-probe `setInterval` period in `pingLoop` (line 217). -/
def pingIntervalMs : Nat := 2000

/-- The `sendCraftedPacket` `setInterval` period in `pingLoop` (line 221). -/
def craftedIntervalMs : Nat := 5000

/-- One event dispatched to a session:
* `joinCalled` — `joinRoom` creates the lobby socket and arms the 30 s
  timeout (lines 646-665);
* `lobbyOpened` — `lobbySocket.onopen` sends the first ping (481-484);
* `serverAddressMsg` — the `AppStats` packet carrying parameter 230
  while `serverAddress` is still empty: `connectToGameServer()` creates
  the game socket (522-536, 624-628);
* `gameOpened` — `gameSocket.onopen`: the FIRST statement closes the
  lobby socket, then ping is sent and `pingLoop` starts both interval
  timers (548-559);
* `gameClosed` — `gameSocket.onclose` only logs (544-546): no timer is
  cleared, no state reset;
* `pingTick` / `statusTick` — an interval firing: sends on the game
  socket whether or not it is still open (211-222);
* `timeoutFired` — the join timeout callback: it only rejects the
  promise (663-665); no socket is closed, no state reset. -/
def connStep (s : ConnState) (e : Ev) : ConnState :=
  match e with
  | .joinCalled =>
      if s.lobby == .initial then
        { s with lobby := .connecting, timeoutArmed := true }
      else s
  | .lobbyOpened =>
      if s.lobby == .connecting then
        { s with lobby := .opened, sent := s.sent ++ [.lobbyPing] }
      else s
  | .serverAddressMsg =>
      if s.lobby == .opened && s.game == .initial then
        { s with game := .connecting }
      else s
  | .gameOpened =>
      if s.game == .connecting then
        { s with game := .opened, gameWasOpen := true, lobby := .closed,
                 sent := s.sent ++ [.gamePing], pingTimerActive := true,
                 statusTimerActive := true }
      else s
  | .gameClosed =>
      if s.game == .connecting || s.game == .opened then
        { s with game := .closed }
      else s
  | .pingTick =>
      if s.pingTimerActive then { s with sent := s.sent ++ [.pingProbe] } else s
  | .statusTick =>
      if s.statusTimerActive then { s with sent := s.sent ++ [.craftedStatus] } else s
  | .timeoutFired =>
      if s.timeoutArmed && s.joinOutcome == none then
        { s with joinOutcome := some .timeoutErr }
      else s

/-- A session execution: the events in dispatch order from the fresh
state. -/
def connRun (evs : List Ev) : ConnState :=
  evs.foldl connStep connInit

/-- The number of currently open channels. -/
def openChannels (s : ConnState) : Nat :=
  (if s.lobby == .opened then 1 else 0) + (if s.game == .opened then 1 else 0)

/-- The handoff invariant: the lobby socket is closed only once the game
socket has opened (the close happens inside `gameSocket.onopen`), and
while the game socket is still connecting the lobby is open. -/
def connInv (s : ConnState) : Prop :=
  (s.lobby = .closed → s.gameWasOpen = true) ∧
  (s.game = .connecting → s.lobby = .opened)

theorem connStep_inv (s : ConnState) (e : Ev) (h : connInv s) :
    connInv (connStep s e) := by
  obtain ⟨h1, h2⟩ := h
  cases e <;> simp only [connStep] <;> split <;> simp_all [connInv]

theorem connRun_inv (evs : List Ev) : connInv (connRun evs) := by
  have main : ∀ (l : List Ev) (s : ConnState), connInv s → connInv (l.foldl connStep s) := by
    intro l
    induction l with
    | nil => intro s hs; exact hs
    | cons e l ih =>
      intro s hs
      exact ih _ (connStep_inv s e hs)
  have hinit : connInv connInit := by
    constructor <;> intro hx <;> simp [connInit] at hx
  exact main evs connInit hinit

/-- C6: during the lobby-to-game handoff the lobby channel is closed
only after the game channel has successfully opened: in every execution,
a closed lobby implies the game channel has been open, and while the
game channel is still connecting the lobby is still open — there is no
reachable state between the two channels with zero live channels. -/
theorem C6_handoff_no_gap (evs : List Ev) :
    ((connRun evs).lobby = .closed → (connRun evs).gameWasOpen = true) ∧
    ((connRun evs).game = .connecting → (connRun evs).lobby = .opened ∧
      1 ≤ openChannels (connRun evs)) := by
  obtain ⟨h1, h2⟩ := connRun_inv evs
  refine ⟨h1, fun hg => ⟨h2 hg, ?_⟩⟩
  have := h2 hg
  simp [openChannels, this]

/-- C6 witness: the full handoff trace ends with the lobby closed and
the game channel having opened. -/
theorem C6_witness :
    (connRun [.joinCalled, .lobbyOpened, .serverAddressMsg, .gameOpened]).gameWasOpen
      = true :=
  (C6_handoff_no_gap [.joinCalled, .lobbyOpened, .serverAddressMsg, .gameOpened]).1 rfl

/-- A handoff followed by the game channel dropping. -/
def handoffThenDrop : List Ev :=
  [.joinCalled, .lobbyOpened, .serverAddressMsg, .gameOpened, .gameClosed]

/-- C7 counterexample: after the game channel closes, both interval
timers are still active (nothing in the repository ever clears them),
and the next ping/status tick still sends its probe — the claim that
both timers are canceled atomically when the channel closes, and that no
probe is ever sent after the close, is false. -/
theorem C7_counterexample :
    (connRun handoffThenDrop).game = .closed ∧
    (connRun handoffThenDrop).pingTimerActive = true ∧
    (connRun handoffThenDrop).statusTimerActive = true ∧
    (connStep (connRun handoffThenDrop) .pingTick).sent
      = (connRun handoffThenDrop).sent ++ [.pingProbe] ∧
    (connStep (connRun handoffThenDrop) .statusTick).sent
      = (connRun handoffThenDrop).sent ++ [.craftedStatus] := by
  refine ⟨rfl, rfl, rfl, rfl, rfl⟩

/-- C7 (amended): while the keep-alive loop runs it emits the lightweight
probe on its 2 s interval and the crafted status packet on its 5 s
interval, but the two `setInterval` handles are never stored and never
cleared: once active, no event — the channel closing and the session
leaving included — ever deactivates either timer, and a tick after the
close still sends. -/
theorem C7_keepalive_never_cancelled :
    pingIntervalMs = 2000 ∧ craftedIntervalMs = 5000 ∧
    (∀ (s : ConnState), s.pingTimerActive = true →
      (connStep s .pingTick).sent = s.sent ++ [.pingProbe]) ∧
    (∀ (s : ConnState), s.statusTimerActive = true →
      (connStep s .statusTick).sent = s.sent ++ [.craftedStatus]) ∧
    (∀ (s : ConnState) (e : Ev), s.pingTimerActive = true →
      (connStep s e).pingTimerActive = true) ∧
    (∀ (s : ConnState) (e : Ev), s.statusTimerActive = true →
      (connStep s e).statusTimerActive = true) := by
  refine ⟨rfl, rfl, ?_, ?_, ?_, ?_⟩
  · intro s h
    simp [connStep, h]
  · intro s h
    simp [connStep, h]
  · intro s e h
    cases e <;> simp only [connStep] <;> split <;> simp [h]
  · intro s e h
    cases e <;> simp only [connStep] <;> split <;> simp [h]

/-- C7 witness: a state with both timers running keeps them running
across a game-channel close, and a ping tick then still sends. -/
theorem C7_witness :
    (connStep { connInit with pingTimerActive := true } .gameClosed).pingTimerActive
        = true ∧
    (connStep { connInit with statusTimerActive := true } .gameClosed).statusTimerActive
        = true ∧
    (connStep { connInit with pingTimerActive := true } .pingTick).sent
        = ({ connInit with pingTimerActive := true } : ConnState).sent ++ [.pingProbe] :=
  ⟨C7_keepalive_never_cancelled.2.2.2.2.1 { connInit with pingTimerActive := true }
      .gameClosed rfl,
   C7_keepalive_never_cancelled.2.2.2.2.2 { connInit with statusTimerActive := true }
      .gameClosed rfl,
   C7_keepalive_never_cancelled.2.2.1 { connInit with pingTimerActive := true } rfl⟩

/-- A join attempt whose session never receives a server-address
trigger: the lobby opens, nothing else arrives, the 30 s timeout fires. -/
def joinNoAddress : List Ev := [.joinCalled, .lobbyOpened, .timeoutFired]

/-- C4 counterexample: the join fails with the timeout error at the 30 s
mark, but afterwards the session does NOT have zero open channels — the
lobby channel opened during the attempt is still open (the timeout
callback only rejects the promise; nothing closes any socket). -/
theorem C4_counterexample :
    (connRun joinNoAddress).joinOutcome = some .timeoutErr ∧
    (connRun joinNoAddress).lobby = .opened ∧
    openChannels (connRun joinNoAddress) = 1 := by
  refine ⟨rfl, rfl, rfl⟩

/-- C4 (amended): with no server-address trigger the game channel is
never even created, the 30 s timeout rejects the join with the timeout
error, and the timeout changes nothing else — the channels opened during
the attempt are left exactly as they were, so the lobby channel stays
open rather than the session ending with zero open channels. -/
theorem C4_timeout_leaves_channel_open :
    joinTimeoutMs = 30000 ∧
    (∀ (s : ConnState), (s.timeoutArmed && s.joinOutcome == none) = true →
      (connStep s .timeoutFired).joinOutcome = some .timeoutErr ∧
      (connStep s .timeoutFired).lobby = s.lobby ∧
      (connStep s .timeoutFired).game = s.game ∧
      (connStep s .timeoutFired).sent = s.sent) ∧
    (∀ (evs : List Ev), Ev.serverAddressMsg ∉ evs → (connRun evs).game = .initial) := by
  refine ⟨rfl, ?_, ?_⟩
  · intro s h
    simp [connStep, h]
  · intro evs hmem
    have main : ∀ (l : List Ev) (s : ConnState), Ev.serverAddressMsg ∉ l →
        s.game = .initial → (l.foldl connStep s).game = .initial := by
      intro l
      induction l with
      | nil => intro s _ hs; exact hs
      | cons e l ih =>
        intro s hm hs
        have hm' : Ev.serverAddressMsg ∉ l := fun hx => hm (List.mem_cons_of_mem e hx)
        have he : e ≠ Ev.serverAddressMsg := fun hx => hm (hx ▸ List.mem_cons_self e l)
        refine ih (connStep s e) hm' ?_
        cases e <;> simp_all [connStep] <;> split <;> simp_all
    exact main evs connInit hmem rfl

/-- C4 witness: the amended behavior at the concrete no-address trace
and at a concrete armed state. -/
theorem C4_witness :
    (connStep { connInit with lobby := .opened, timeoutArmed := true }
        .timeoutFired).joinOutcome = some .timeoutErr ∧
    (connRun [.joinCalled, .lobbyOpened]).game = .initial :=
  ⟨(C4_timeout_leaves_channel_open.2.1
      { connInit with lobby := .opened, timeoutArmed := true } rfl).1,
   C4_timeout_leaves_channel_open.2.2 [.joinCalled, .lobbyOpened] (by decide)⟩

end BLF